import Mathlib

/-
  Verification development for the nextgentrader repository.

  The frontend components (JobsTable.tsx, OrdersSideTable, OrdersTable,
  TradebotChat.tsx) are embedded directly from their TypeScript source.
  The backend core (job queue engine, order lifecycle manager, execution
  ingestion) exists in this repository only as design documents
  (docs/spec-worker-order-recovery.md, docs/spec-trades-and-executions-sync.md,
  docs/tradebot-workers.md); those parts are modelled from the spec, as
  marked on each definition.
-/

namespace NextGenTrader

/-! ## Frontend duration computations

  Embedded from `frontend/src/components/JobsTable.tsx` (lines 23-58) and
  from the `OrdersSideTable` component (same structure, fields
  `created_at`/`submitted_at`/`completed_at`).

  A timestamp field is modelled as the outcome of reading it and applying
  `Date.parse`: `none` is a null/absent field, `some none` is a string on
  which `Date.parse` returns `NaN`, and `some (some t)` is a string parsing
  to the epoch-millisecond value `t`.  `parseTime` then mirrors the source:
  `null` for an absent field, `null` for `NaN`, otherwise the number.
-/

/-- Outcome of `Date.parse` on an optional timestamp string:
    absent, unparseable, or a number of epoch milliseconds. -/
def TimeField : Type := Option (Option Int)

/-- Embeds `parseTime` (JobsTable.tsx lines 23-27 and OrdersSideTable):
    `null` input gives `null`, `NaN` gives `null`, otherwise the parsed value. -/
def parseTime (value : TimeField) : Option Int := value.bind id

namespace JobsTable

/-- Job row as consumed by `JobsTable.tsx` (timing-relevant fields). -/
structure Job where
  created_at : TimeField
  started_at : TimeField
  completed_at : TimeField

/-- Embeds `computeQueueMs` (JobsTable.tsx lines 41-45). -/
def computeQueueMs (job : Job) (nowMs : Int) : Int :=
  let createdMs := (parseTime job.created_at).getD nowMs
  let startedMs := parseTime job.started_at
  startedMs.getD nowMs - createdMs

/-- Embeds `computeRunMs` (JobsTable.tsx lines 47-52). -/
def computeRunMs (job : Job) (nowMs : Int) : Option Int :=
  match parseTime job.started_at with
  | none => none
  | some startedMs =>
    let completedMs := parseTime job.completed_at
    some (completedMs.getD nowMs - startedMs)

/-- Embeds `computeTotalMs` (JobsTable.tsx lines 54-58). -/
def computeTotalMs (job : Job) (nowMs : Int) : Int :=
  let createdMs := (parseTime job.created_at).getD nowMs
  let completedMs := parseTime job.completed_at
  completedMs.getD nowMs - createdMs

end JobsTable

namespace OrdersSideTable

/-- Order row as consumed by the `OrdersSideTable` component
    (timing-relevant fields). -/
structure OrderRow where
  created_at : TimeField
  submitted_at : TimeField
  completed_at : TimeField

/-- Embeds `computeQueueMs` of `OrdersSideTable` (lines 45-49). -/
def computeQueueMs (order : OrderRow) (nowMs : Int) : Int :=
  let createdMs := (parseTime order.created_at).getD nowMs
  let submittedMs := parseTime order.submitted_at
  submittedMs.getD nowMs - createdMs

/-- Embeds `computeRunMs` of `OrdersSideTable` (lines 51-56). -/
def computeRunMs (order : OrderRow) (nowMs : Int) : Option Int :=
  match parseTime order.submitted_at with
  | none => none
  | some submittedMs =>
    let completedMs := parseTime order.completed_at
    some (completedMs.getD nowMs - submittedMs)

/-- Embeds `computeTotalMs` of `OrdersSideTable` (lines 58-62). -/
def computeTotalMs (order : OrderRow) (nowMs : Int) : Int :=
  let createdMs := (parseTime order.created_at).getD nowMs
  let completedMs := parseTime order.completed_at
  completedMs.getD nowMs - createdMs

end OrdersSideTable

/-! ## Frontend HTTP requests issued by the order-listing components

  Embedded from the `OrdersSideTable` component (load/reload on
  `GET /api/v1/orders`, `cancelOrder` on `POST /api/v1/orders/{id}/cancel`)
  and the `OrdersTable` component (load on `GET /api/v1/orders`,
  `cancelOrder` on `POST /api/v1/orders/{id}/cancel`).
-/

/-- HTTP method of a fetch issued by the frontend; `fetch` without an
    explicit method option defaults to GET. -/
inductive Method where
  | get
  | post
deriving DecidableEq, Repr

/-- One HTTP request issued by a frontend component. -/
structure Request where
  method : Method
  url : String
deriving DecidableEq, Repr

namespace OrdersSideTable

/-- Embeds the `load` fetch of `OrdersSideTable` (line 74). -/
def loadRequest : Request :=
  { method := Method.get, url := "http://localhost:8000/api/v1/orders" }

/-- Embeds the `reload` fetch of `OrdersSideTable` (line 104). -/
def reloadRequest : Request :=
  { method := Method.get, url := "http://localhost:8000/api/v1/orders" }

/-- Embeds the fetch issued by `cancelOrder` of `OrdersSideTable`
    (line 122): a POST to the per-order cancel endpoint. -/
def cancelOrderRequest (orderId : Nat) : Request :=
  { method := Method.post
    url := "http://localhost:8000/api/v1/orders/" ++ toString orderId ++ "/cancel" }

/-- Requests the `OrdersSideTable` component can issue against the orders
    API, for a given order id reachable from its Cancel button. -/
def requests (orderId : Nat) : List Request :=
  [loadRequest, reloadRequest, cancelOrderRequest orderId]

end OrdersSideTable

namespace OrdersTable

/-- Embeds the `load` fetch of `OrdersTable` (line 48). -/
def loadRequest : Request :=
  { method := Method.get, url := "http://localhost:8000/api/v1/orders" }

/-- Embeds the fetch issued by `cancelOrder` of `OrdersTable` (line 81):
    a POST to the per-order cancel endpoint. -/
def cancelOrderRequest (orderId : Nat) : Request :=
  { method := Method.post
    url := "http://localhost:8000/api/v1/orders/" ++ toString orderId ++ "/cancel" }

/-- Requests the `OrdersTable` component can issue against the orders API,
    for a given order id reachable from its Cancel button. -/
def requests (orderId : Nat) : List Request :=
  [loadRequest, cancelOrderRequest orderId]

end OrdersTable

/-- A request is a read exactly when it uses the GET method. -/
def isRead (r : Request) : Bool := r.method = Method.get

/-! ## TradebotChat outbound sanitisation

  Embedded from `frontend/src/components/TradebotChat.tsx` lines 14-28 and
  35-65.  `sanitizeOutboundText` applies the global regex replace
  `text.replace(/\b[DdUuFf][a-zA-Z0-9]{6,}\b/g, "[redacted-account]")`,
  trims the result, and falls back to `"[redacted]"` when the trimmed
  result is empty.

  The regex semantics are compiled to an explicit scan over the character
  list.  JS word characters are `[A-Za-z0-9_]`.  A match of
  `\b[DdUuFf][a-zA-Z0-9]{6,}\b` must start at the beginning of a maximal
  word-character run (the leading `\b`), consume only `[a-zA-Z0-9]`
  characters, and end at a word boundary; since every matched character is
  a word character, the match must consume the run exactly to its end.
  Hence a maximal word run is replaced if and only if its first character
  is one of `DdUuFf`, all its remaining characters are ASCII alphanumeric
  (in particular the run contains no underscore), and it has at least six
  characters after the first; otherwise the run is left intact.  No match
  can start strictly inside a run (the leading `\b` fails there), and no
  match can stop strictly before the end of a run (the trailing `\b`
  fails on every backtracking attempt, all of which end before another
  word character).
-/

namespace TradebotChat

/-- JS regex word character: ASCII letter, digit, or underscore.  The
    source text is ASCII, so `Char.isAlphanum` (which is ASCII-only)
    coincides with the JS `\w` letter/digit classes on it. -/
def isWordChar (c : Char) : Bool := c.isAlphanum || c = '_'

/-- First-character class `[DdUuFf]` of the broker-account regex. -/
def isAccountStart (c : Char) : Bool :=
  c = 'D' || c = 'd' || c = 'U' || c = 'u' || c = 'F' || c = 'f'

/-- Whether a maximal word-character run is matched (hence replaced) by
    the account regex, per the compilation described above. -/
def isAccountRun (run : List Char) : Bool :=
  match run with
  | [] => false
  | c :: rest => isAccountStart c && rest.all (fun d => d.isAlphanum) && 6 ≤ rest.length

/-- Replacement text for a matched account token. -/
def redactedAccount : List Char := "[redacted-account]".toList

/-- Compiled form of the global regex replace in `sanitizeOutboundText`
    (TradebotChat.tsx lines 23-27): each maximal word-character run that
    the account regex matches is replaced by `[redacted-account]`; all
    other characters pass through unchanged. -/
def sanitizeChars : List Char → List Char
  | [] => []
  | c :: rest =>
    if isWordChar c then
      let run := c :: rest.takeWhile isWordChar
      let rest' := rest.dropWhile isWordChar
      (if isAccountRun run then redactedAccount else run) ++ sanitizeChars rest'
    else
      c :: sanitizeChars rest
termination_by cs => cs.length
decreasing_by
  · simpa using Nat.lt_succ_of_le (List.Sublist.length_le (List.dropWhile_sublist isWordChar))
  · simp

/-- Embeds `String.prototype.trim` as used on line 27: whitespace removed
    from both ends. -/
def trimChars (cs : List Char) : List Char :=
  ((cs.dropWhile Char.isWhitespace).reverse.dropWhile Char.isWhitespace).reverse

/-- Embeds `sanitizeOutboundText` (TradebotChat.tsx lines 22-28):
    regex-replace account tokens, trim, and fall back to `[redacted]`
    when the trimmed result is empty. -/
def sanitizeOutboundText (text : List Char) : List Char :=
  let withRedactedIbAccounts := sanitizeChars text
  let trimmed := trimChars withRedactedIbAccounts
  if trimmed = [] then "[redacted]".toList else trimmed

/-- Maximal word-character runs of a character list, in order. -/
def wordRuns : List Char → List (List Char)
  | [] => []
  | c :: rest =>
    if isWordChar c then
      (c :: rest.takeWhile isWordChar) :: wordRuns (rest.dropWhile isWordChar)
    else
      wordRuns rest
termination_by cs => cs.length
decreasing_by
  · simpa using Nat.lt_succ_of_le (List.Sublist.length_le (List.dropWhile_sublist isWordChar))
  · simp

/-- A character list contains a broker-account token when one of its
    maximal word runs is matched by the account regex. -/
def containsAccountToken (cs : List Char) : Bool :=
  (wordRuns cs).any isAccountRun

/-- Role of a chat message, per the `UIMessage` roles relevant here. -/
inductive Role where
  | user
  | assistant
  | system
deriving DecidableEq, Repr

/-- Outbound chat message after `messageText` extraction: a role and the
    joined nonempty text of its parts. -/
structure ChatMessage where
  role : Role
  text : List Char
deriving DecidableEq, Repr

/-- Embeds the body construction of `prepareSendMessagesRequest`
    (TradebotChat.tsx lines 35-65): messages with empty extracted text
    are dropped; user messages are sanitised; other roles pass through. -/
def outboundMessages (messages : List ChatMessage) : List ChatMessage :=
  messages.filterMap (fun message =>
    if message.text = [] then none
    else some { role := message.role
                text := if message.role = Role.user
                        then sanitizeOutboundText message.text
                        else message.text })

end TradebotChat

/-! ## Job Queue Engine

  The queue primitive lives in `src/services/jobs.py`, which is not part
  of this repository snapshot; only its design documents are
  (docs/tradebot-workers.md, spec §4.1).  The definitions below are
  modelled from the spec.
-/

namespace Jobs

/-- Status of a row in the `jobs` table. -/
inductive JobStatus where
  | queued
  | running
  | completed
  | failed
deriving DecidableEq, Repr

/-- Modelled from the spec: a Job row of the `jobs` table (spec §3),
    standing in for the ORM model of `src/services/jobs.py`, which is
    absent from the snapshot. -/
structure Job where
  id : Nat
  job_type : String
  payload : String
  status : JobStatus
  attempt_count : Nat
  max_attempts : Nat
  lease_owner : Option String
  lease_expires_at : Option Nat
  heartbeat_at : Option Nat
  result : Option String
  last_error : Option String
  created_at : Nat
deriving DecidableEq, Repr

/-- Durable queue state: the `jobs` table plus the id sequence. -/
structure QueueState where
  jobs : List Job
  nextId : Nat
deriving DecidableEq, Repr

/-- Empty queue. -/
def initQueue : QueueState := { jobs := [], nextId := 0 }

/-- Modelled from the spec: `enqueue(job_type, payload, max_attempts)`
    creates a `queued` Job and returns its identifier (spec §4.1;
    `src/services/jobs.py` is absent from the snapshot). -/
def enqueue (s : QueueState) (job_type payload : String) (max_attempts : Nat)
    (now : Nat) : Nat × QueueState :=
  (s.nextId,
   { jobs := s.jobs ++
       [{ id := s.nextId, job_type := job_type, payload := payload
          status := JobStatus.queued, attempt_count := 0
          max_attempts := max_attempts, lease_owner := none
          lease_expires_at := none, heartbeat_at := none, result := none
          last_error := none, created_at := now }]
     nextId := s.nextId + 1 })

/-- Worker `w` holds a non-expired lease on job `j` at instant `now`. -/
def holdsLease (j : Job) (w : String) (now : Nat) : Prop :=
  j.lease_owner = some w ∧ ∃ t, j.lease_expires_at = some t ∧ now < t

/-- The lease on `j` is absent or expired at instant `now`. -/
def leaseExpired (j : Job) (now : Nat) : Bool :=
  match j.lease_expires_at with
  | none => true
  | some t => t ≤ now

/-- Modelled from the spec: a job is claimable when it is `queued`, or
    `running` with an expired lease (spec §4.1: "selects one queued or
    lease-expired job"). -/
def eligible (j : Job) (now : Nat) : Bool :=
  match j.status with
  | JobStatus.queued => leaseExpired j now
  | JobStatus.running => leaseExpired j now
  | _ => false

/-- Oldest-first selection among eligible jobs: minimal `created_at`,
    earliest row on ties. -/
def selectOldest (jobs : List Job) (now : Nat) : Option Job :=
  (jobs.filter (fun j => eligible j now)).foldl
    (fun acc j =>
      match acc with
      | none => some j
      | some b => if j.created_at < b.created_at then some j else some b)
    none

/-- Fields written by a successful claim: caller becomes lease owner,
    status becomes `running`, the attempt is counted. -/
def claimedJob (j : Job) (worker_id : String) (lease_duration now : Nat) : Job :=
  { j with status := JobStatus.running
           attempt_count := j.attempt_count + 1
           lease_owner := some worker_id
           lease_expires_at := some (now + lease_duration)
           heartbeat_at := some now }

/-- Modelled from the spec: `claim_next(worker_id, lease_duration)`
    atomically selects one queued or lease-expired job (oldest first),
    assigns the caller as lease owner, sets status `running`, and returns
    it, or returns none (spec §4.1).  Atomicity of the locked
    read-modify-write is modelled by the whole selection and update being
    a single state transition, so concurrent claimers serialize. -/
def claim_next (s : QueueState) (worker_id : String) (lease_duration now : Nat) :
    Option Job × QueueState :=
  match selectOldest s.jobs now with
  | none => (none, s)
  | some j =>
    (some (claimedJob j worker_id lease_duration now),
     { s with jobs := s.jobs.map (fun x =>
         if x.id = j.id then claimedJob j worker_id lease_duration now else x) })

/-- Applies an update to the row with the given id. -/
def updateJob (s : QueueState) (jid : Nat) (f : Job → Job) : QueueState :=
  { s with jobs := s.jobs.map (fun x => if x.id = jid then f x else x) }

/-- Modelled from the spec: `complete(job_id, result)` finalizes the job
    as `completed` and releases the lease (spec §4.1). -/
def complete (s : QueueState) (jid : Nat) (result : String) : QueueState :=
  updateJob s jid (fun j =>
    { j with status := JobStatus.completed, result := some result
             lease_owner := none, lease_expires_at := none })

/-- Modelled from the spec: `fail(job_id, error)` records the error and,
    if `attempt_count < max_attempts`, returns the job to `queued` for
    retry, otherwise makes it terminal `failed` (spec §4.1; the attempt
    count itself is incremented when the attempt starts, at claim time,
    which is what makes the spec scenario end at `attempt_count = 3`). -/
def fail (s : QueueState) (jid : Nat) (error : String) : QueueState :=
  updateJob s jid (fun j =>
    if j.attempt_count < j.max_attempts then
      { j with status := JobStatus.queued, last_error := some error
               lease_owner := none, lease_expires_at := none
               heartbeat_at := none }
    else
      { j with status := JobStatus.failed, last_error := some error
               lease_owner := none, lease_expires_at := none })

/-- Looks up a job row by id. -/
def findJob (s : QueueState) (jid : Nat) : Option Job :=
  s.jobs.find? (fun j => j.id == jid)

end Jobs

/-! ## Order Lifecycle Manager: fill application

  The order worker lives in `scripts/work_order_queue.py`, absent from
  this snapshot; docs/spec-worker-order-recovery.md and spec §4.2 describe
  it.  The fill-application path is modelled from the spec.
-/

namespace Orders

/-- Canonical order states (docs/spec-worker-order-recovery.md,
    "Canonical States"); `partFilled` models `partially_filled`. -/
inductive OrderStatus where
  | queued
  | submitting
  | submitted
  | partFilled
  | filled
  | cancelled
  | rejected
  | failed
  | reconcileRequired
deriving DecidableEq, Repr

/-- Modelled from the spec: an Order row, restricted to the fields the
    fill path touches (spec §3). -/
structure Order where
  id : Nat
  order_ref : String
  quantity : ℚ
  status : OrderStatus
  filled_quantity : ℚ
  avg_fill_price : Option ℚ
deriving DecidableEq

/-- One fill notification from the venue: execution timestamp, fill
    delta, and price (spec §4.2 and §3, OrderEvent "fill delta"). -/
structure Fill where
  exec_time : Nat
  qty : ℚ
  price : ℚ
deriving DecidableEq

/-- Modelled from the spec: applying one fill notification updates filled
    quantity and average fill price and moves the order to
    `partially_filled` or `filled` (spec §4.2). -/
def applyFill (o : Order) (f : Fill) : Order :=
  let newFilled := o.filled_quantity + f.qty
  { o with
    filled_quantity := newFilled
    avg_fill_price :=
      if newFilled = 0 then none
      else some ((o.filled_quantity * (o.avg_fill_price.getD 0) + f.qty * f.price) / newFilled)
    status := if o.quantity ≤ newFilled then OrderStatus.filled else OrderStatus.partFilled }

/-- Modelled from the spec: out-of-order fills are applied by venue
    execution timestamp, never by arrival order (spec §4.2 tie-break
    policy). -/
def sortFills (fills : List Fill) : List Fill :=
  fills.mergeSort (fun a b => decide (a.exec_time ≤ b.exec_time))

/-- Event-history states of an order under a batch of fill
    notifications: the initial state followed by the state after each
    fill, fills applied in venue-execution-timestamp order. -/
def fillHistory (o : Order) (fills : List Fill) : List Order :=
  List.scanl applyFill o (sortFills fills)

end Orders

/-! ## Execution Ingestion & Correction Resolver

  The sync service is planned as `src/services/trade_sync.py`
  (docs/spec-trades-and-executions-sync.md), absent from this snapshot.
  The definitions below are modelled from that spec and spec §4.3.
-/

namespace TradeSync

/-- Decimal value of a digit suffix. -/
def natOfDigits (cs : List Char) : Nat :=
  cs.foldl (fun n c => 10 * n + (c.toNat - 48)) 0

/-- Splits an identifier at its last dot, returning the parts before and
    after it; `none` when the identifier contains no dot. -/
def splitLastDot : List Char → Option (List Char × List Char)
  | [] => none
  | c :: rest =>
    match splitLastDot rest with
    | some (base, suffix) => some (c :: base, suffix)
    | none => if c = '.' then some ([], rest) else none

/-- Modelled from the spec: the correction-suffix parser maps a raw
    execution identifier to `(exec_id_base, exec_revision)`; an
    identifier with no revision suffix, or with an unparseable (non-digit
    or empty) suffix, yields revision 0 with the identifier itself as the
    base (spec §4.3 and docs/spec-trades-and-executions-sync.md,
    "Correction handling" and "Risks": safe default `revision=0`). -/
def parseExecId (raw : List Char) : List Char × Nat :=
  match splitLastDot raw with
  | none => (raw, 0)
  | some (base, suffix) =>
    if suffix.isEmpty || !suffix.all Char.isDigit then (raw, 0)
    else (base, natOfDigits suffix)

/-- Modelled from the spec: a normalized execution DTO built from one raw
    fill notification (docs/spec-trades-and-executions-sync.md, sync
    service plan; `ib_perm_id = 0` models an absent/zero permanent id). -/
structure ExecRecord where
  account_id : Nat
  ib_exec_id : List Char
  ib_perm_id : Nat
  ib_order_id : Nat
  order_ref : Option String
  client_id : Nat
  symbol : String
  side : String
  trade_date : Nat
  executed_at : Nat
  quantity : ℚ
  price : ℚ
deriving DecidableEq

/-- Modelled from the spec: a `trade_executions` row
    (docs/spec-trades-and-executions-sync.md, canonical data model);
    `raw` preserves the raw record for audit. -/
structure TradeExecution where
  trade_id : Nat
  account_id : Nat
  ib_exec_id : List Char
  exec_id_base : List Char
  exec_revision : Nat
  executed_at : Nat
  quantity : ℚ
  price : ℚ
  is_canonical : Bool
  raw : ExecRecord
deriving DecidableEq

/-- Modelled from the spec: a `trades` row
    (docs/spec-trades-and-executions-sync.md, canonical data model). -/
structure Trade where
  id : Nat
  account_id : Nat
  ib_perm_id : Nat
  order_ref : Option String
  ib_order_id : Nat
  client_id : Nat
  symbol : String
  side : String
  trade_date : Nat
  total_quantity : ℚ
  avg_price : Option ℚ
  first_executed_at : Option Nat
  last_executed_at : Option Nat
deriving DecidableEq

/-- Durable ingestion state: `trades` and `trade_executions` tables plus
    the trade id sequence. -/
structure SyncState where
  trades : List Trade
  execs : List TradeExecution
  nextTradeId : Nat
deriving DecidableEq

/-- Empty ingestion state. -/
def initialState : SyncState := { trades := [], execs := [], nextTradeId := 0 }

/-- Match on `(account_id, ib_perm_id)` (resolution rule 1). -/
def permMatches (r : ExecRecord) (t : Trade) : Bool :=
  t.account_id == r.account_id && t.ib_perm_id == r.ib_perm_id

/-- Match on `(account_id, order_ref)` (resolution rule 2). -/
def orderRefMatches (r : ExecRecord) (oref : String) (t : Trade) : Bool :=
  t.account_id == r.account_id && t.order_ref == some oref

/-- Match on the composite fallback `(account_id, client_id, ib_order_id,
    symbol, side, trade_date)` (resolution rule 3). -/
def compositeMatches (r : ExecRecord) (t : Trade) : Bool :=
  t.account_id == r.account_id && t.client_id == r.client_id &&
  t.ib_order_id == r.ib_order_id && t.symbol == r.symbol &&
  t.side == r.side && t.trade_date == r.trade_date

/-- Modelled from the spec: the matching criterion the resolver applies
    to an incoming execution, per the priority order of spec §4.3 /
    docs/spec-trades-and-executions-sync.md "Trade parent identity":
    the permanent broker identifier when present and nonzero, else the
    client order reference when present, else the composite fallback. -/
def tradeRule (r : ExecRecord) : Trade → Bool :=
  if 0 < r.ib_perm_id then permMatches r
  else
    match r.order_ref with
    | some oref => orderRefMatches r oref
    | none => compositeMatches r

/-- A fresh Trade created for an execution with no matching parent. -/
def newTrade (r : ExecRecord) (id : Nat) : Trade :=
  { id := id, account_id := r.account_id, ib_perm_id := r.ib_perm_id
    order_ref := r.order_ref, ib_order_id := r.ib_order_id
    client_id := r.client_id, symbol := r.symbol, side := r.side
    trade_date := r.trade_date, total_quantity := 0, avg_price := none
    first_executed_at := none, last_executed_at := none }

/-- Modelled from the spec: resolve the parent Trade of an incoming
    execution by the prioritized matching criterion, creating the Trade
    when no candidate matches (spec §4.3). -/
def resolveTrade (s : SyncState) (r : ExecRecord) : Nat × SyncState :=
  match s.trades.find? (tradeRule r) with
  | some t => (t.id, s)
  | none =>
    (s.nextTradeId,
     { s with trades := s.trades ++ [newTrade r s.nextTradeId]
              nextTradeId := s.nextTradeId + 1 })

/-- Upsert key: uniqueness on `(account_id, ib_exec_id)`. -/
def keyMatch (a : Nat) (execId : List Char) (e : TradeExecution) : Bool :=
  e.account_id == a && e.ib_exec_id == execId

/-- Row built from a record for a resolved parent trade; the stored base
    and revision are derived by the parser, and the raw record is kept. -/
def buildRow (r : ExecRecord) (tid : Nat) : TradeExecution :=
  let p := parseExecId r.ib_exec_id
  { trade_id := tid, account_id := r.account_id, ib_exec_id := r.ib_exec_id
    exec_id_base := p.1, exec_revision := p.2, executed_at := r.executed_at
    quantity := r.quantity, price := r.price, is_canonical := true, raw := r }

/-- Modelled from the spec: upsert keyed on `(account_id, ib_exec_id)`:
    an existing row is updated in place (its canonical flag is left to
    the subsequent recomputation), otherwise the row is appended
    (spec §4.3). -/
def upsertExec (es : List TradeExecution) (row : TradeExecution) : List TradeExecution :=
  if es.any (keyMatch row.account_id row.ib_exec_id) then
    es.map (fun e =>
      if keyMatch row.account_id row.ib_exec_id e then
        { row with is_canonical := e.is_canonical }
      else e)
  else es ++ [row]

/-- Correction group membership: same `(account_id, exec_id_base)`. -/
def inGroup (a : Nat) (base : List Char) (e : TradeExecution) : Bool :=
  e.account_id == a && e.exec_id_base == base

/-- Revisions present in one correction group. -/
def groupRevs (es : List TradeExecution) (a : Nat) (base : List Char) : List Nat :=
  (es.filter (inGroup a base)).map (fun e => e.exec_revision)

/-- Highest revision present in one correction group. -/
def maxRev (es : List TradeExecution) (a : Nat) (base : List Char) : Nat :=
  (groupRevs es a base).foldl max 0

/-- Marks the first row of the group carrying revision `m` canonical and
    demotes every other row of the group; rows outside the group are
    untouched.  The accumulator records whether the canonical row has
    already been placed. -/
def markGroup (a : Nat) (base : List Char) (m : Nat) :
    List TradeExecution → Bool → List TradeExecution
  | [], _ => []
  | e :: t, done =>
    if inGroup a base e then
      if e.exec_revision == m && !done then
        { e with is_canonical := true } :: markGroup a base m t true
      else
        { e with is_canonical := false } :: markGroup a base m t done
    else
      e :: markGroup a base m t done

/-- Modelled from the spec: after upsert, canonicality is recomputed
    across all rows sharing `(account_id, exec_id_base)`: the highest
    revision is marked canonical, all others demoted (spec §4.3). -/
def recanonicalize (es : List TradeExecution) (a : Nat) (base : List Char) :
    List TradeExecution :=
  markGroup a base (maxRev es a base) es false

/-- Canonical executions belonging to one trade. -/
def canonicalOf (es : List TradeExecution) (tid : Nat) : List TradeExecution :=
  es.filter (fun e => e.trade_id == tid && e.is_canonical)

/-- Total quantity over a list of executions. -/
def sumQty (l : List TradeExecution) : ℚ :=
  (l.map (fun e => e.quantity)).sum

/-- Quantity-weighted notional over a list of executions. -/
def sumNotional (l : List TradeExecution) : ℚ :=
  (l.map (fun e => e.quantity * e.price)).sum

/-- Modelled from the spec: a Trade's aggregate fields recomputed
    strictly from the canonical executions belonging to it (spec §4.3). -/
def recomputeAggregates (es : List TradeExecution) (t : Trade) : Trade :=
  let cs := canonicalOf es t.id
  let q := sumQty cs
  { t with total_quantity := q
           avg_price := if q = 0 then none else some (sumNotional cs / q)
           first_executed_at := (cs.map (fun e => e.executed_at)).min?
           last_executed_at := (cs.map (fun e => e.executed_at)).max? }

/-- Recomputes the aggregates of every trade from the execution table. -/
def recomputeAllAggregates (s : SyncState) : SyncState :=
  { s with trades := s.trades.map (recomputeAggregates s.execs) }

/-- Modelled from the spec: `ingest(raw_execution)` parses the raw
    identifier, resolves the parent Trade, upserts the execution row
    keyed on `(account_id, ib_exec_id)`, recomputes canonicality across
    the `(account_id, exec_id_base)` group, and recomputes trade
    aggregates from canonical executions only (spec §4.3). -/
def ingest (s : SyncState) (r : ExecRecord) : SyncState :=
  let p := parseExecId r.ib_exec_id
  let resolved := resolveTrade s r
  let es1 := upsertExec resolved.2.execs (buildRow r resolved.1)
  let es2 := recanonicalize es1 r.account_id p.1
  recomputeAllAggregates { resolved.2 with execs := es2 }

/-- Canonicality invariant of the execution table: every nonempty
    correction group has exactly one canonical row, and that row carries
    the group's highest revision. -/
def canonOK (es : List TradeExecution) : Prop :=
  ∀ a base, es.filter (inGroup a base) ≠ [] →
    (es.filter (inGroup a base)).countP (fun e => e.is_canonical) = 1 ∧
    ∀ e ∈ es.filter (inGroup a base), e.is_canonical = true →
      e.exec_revision = maxRev es a base

/-- Aggregate invariant: every trade's stored aggregates equal the
    aggregates of its canonical executions. -/
def aggOK (s : SyncState) : Prop :=
  ∀ t ∈ s.trades,
    t.total_quantity = sumQty (canonicalOf s.execs t.id) ∧
    t.avg_price = (if sumQty (canonicalOf s.execs t.id) = 0 then none
                   else some (sumNotional (canonicalOf s.execs t.id) /
                              sumQty (canonicalOf s.execs t.id)))

/-- Field-consistency invariant: stored base and revision are the parse
    of the stored raw identifier. -/
def fieldsOK (es : List TradeExecution) : Prop :=
  ∀ e ∈ es, e.exec_id_base = (parseExecId e.ib_exec_id).1 ∧
    e.exec_revision = (parseExecId e.ib_exec_id).2

end TradeSync

/-! ## Concrete sample data -/

namespace Samples

/-- A trade that matches the sample record by order reference only. -/
def tradeByRef : TradeSync.Trade :=
  { id := 1, account_id := 1, ib_perm_id := 0, order_ref := some "X-1"
    ib_order_id := 7, client_id := 2, symbol := "CL", side := "BUY"
    trade_date := 20260, total_quantity := 0, avg_price := none
    first_executed_at := none, last_executed_at := none }

/-- A trade that matches the sample record by permanent identifier. -/
def tradeByPerm : TradeSync.Trade :=
  { id := 2, account_id := 1, ib_perm_id := 5, order_ref := none
    ib_order_id := 9, client_id := 3, symbol := "GC", side := "SELL"
    trade_date := 20261, total_quantity := 0, avg_price := none
    first_executed_at := none, last_executed_at := none }

/-- A sync state holding both sample trades. -/
def syncState : TradeSync.SyncState :=
  { trades := [tradeByRef, tradeByPerm], execs := [], nextTradeId := 3 }

/-- A record carrying a nonzero permanent identifier and an order
    reference, so resolution rules 1 and 2 would pick different trades. -/
def recPerm : TradeSync.ExecRecord :=
  { account_id := 1, ib_exec_id := "0000e1a7.01".toList, ib_perm_id := 5
    ib_order_id := 7, order_ref := some "X-1", client_id := 2
    symbol := "CL", side := "BUY", trade_date := 20260, executed_at := 100
    quantity := 1, price := 60 }

/-- Base execution record `E1` at revision 0 (no suffix). -/
def recE1r0 : TradeSync.ExecRecord :=
  { account_id := 1, ib_exec_id := "E1".toList, ib_perm_id := 5
    ib_order_id := 7, order_ref := some "X-1", client_id := 2
    symbol := "CL", side := "BUY", trade_date := 20260, executed_at := 100
    quantity := 3, price := 60 }

/-- Correction of `E1` at revision 1. -/
def recE1r1 : TradeSync.ExecRecord :=
  { account_id := 1, ib_exec_id := "E1.1".toList, ib_perm_id := 5
    ib_order_id := 7, order_ref := some "X-1", client_id := 2
    symbol := "CL", side := "BUY", trade_date := 20260, executed_at := 101
    quantity := 4, price := 61 }

/-- A sample order and fills for the fill-monotonicity witness. -/
def order0 : Orders.Order :=
  { id := 1, order_ref := "ngtrader-order-1", quantity := 10
    status := Orders.OrderStatus.submitted, filled_quantity := 0
    avg_fill_price := none }

/-- Two fills arriving out of venue-timestamp order. -/
def fills0 : List Orders.Fill :=
  [{ exec_time := 5, qty := 7, price := 61 }, { exec_time := 2, qty := 3, price := 60 }]

/-- Job-queue state reached by the spec scenario: enqueue with
    `max_attempts = 3`, fail twice, succeed on the third attempt. -/
def scenarioFinal : Jobs.QueueState :=
  let s0 := (Jobs.enqueue Jobs.initQueue "sync" "{}" 3 0).2
  let c1 := Jobs.claim_next s0 "w" 60 1
  let s2 := Jobs.fail c1.2 0 "boom"
  let c2 := Jobs.claim_next s2 "w" 60 2
  let s4 := Jobs.fail c2.2 0 "boom"
  let c3 := Jobs.claim_next s4 "w" 60 3
  Jobs.complete c3.2 0 "ok"

/-- Queue with two queued jobs, for the double-claim witness. -/
def twoJobs : Jobs.QueueState :=
  (Jobs.enqueue (Jobs.enqueue Jobs.initQueue "sync" "{}" 3 0).2 "sync" "{}" 3 1).2

/-- Job handed to the first claimer of `twoJobs` at instant 2. -/
def jobA : Jobs.Job :=
  { id := 0, job_type := "sync", payload := "{}"
    status := Jobs.JobStatus.running, attempt_count := 1, max_attempts := 3
    lease_owner := some "w1", lease_expires_at := some 62
    heartbeat_at := some 2, result := none, last_error := none
    created_at := 0 }

/-- Job handed to the second claimer at instant 2. -/
def jobB : Jobs.Job :=
  { id := 1, job_type := "sync", payload := "{}"
    status := Jobs.JobStatus.running, attempt_count := 1, max_attempts := 3
    lease_owner := some "w2", lease_expires_at := some 62
    heartbeat_at := some 2, result := none, last_error := none
    created_at := 1 }

/-- Queue state after the first claim. -/
def stateA : Jobs.QueueState := (Jobs.claim_next twoJobs "w1" 60 2).2

/-- Queue state after the second claim. -/
def stateB : Jobs.QueueState := (Jobs.claim_next stateA "w2" 60 2).2

/-- Row of job 0 after the first claim is failed. -/
def rowA : Jobs.Job :=
  { id := 0, job_type := "sync", payload := "{}"
    status := Jobs.JobStatus.queued, attempt_count := 1, max_attempts := 3
    lease_owner := none, lease_expires_at := none, heartbeat_at := none
    result := none, last_error := some "boom", created_at := 0 }

end Samples

/-! ## Theorems -/

/-- C9: for every job row and every order row whose created,
    started/submitted, and completed timestamps all parse as valid dates,
    and for every instant `nowMs`, `computeTotalMs` equals
    `computeQueueMs` plus `computeRunMs`; the three duration functions of
    the jobs table and the three of the orders side table satisfy the
    same additivity identity. -/
theorem duration_additivity
    (job : JobsTable.Job) (order : OrdersSideTable.OrderRow) (nowMs : Int)
    (jc js je oc os oe : Int)
    (hjc : parseTime job.created_at = some jc)
    (hjs : parseTime job.started_at = some js)
    (hje : parseTime job.completed_at = some je)
    (hoc : parseTime order.created_at = some oc)
    (hos : parseTime order.submitted_at = some os)
    (hoe : parseTime order.completed_at = some oe) :
    (∃ r, JobsTable.computeRunMs job nowMs = some r ∧
      JobsTable.computeTotalMs job nowMs = JobsTable.computeQueueMs job nowMs + r) ∧
    (∃ r, OrdersSideTable.computeRunMs order nowMs = some r ∧
      OrdersSideTable.computeTotalMs order nowMs =
        OrdersSideTable.computeQueueMs order nowMs + r) := by
  constructor
  · refine ⟨je - js, ?_, ?_⟩
    · simp [JobsTable.computeRunMs, hjs, hje]
    · simp [JobsTable.computeTotalMs, JobsTable.computeQueueMs, hjc, hjs, hje]
  · refine ⟨oe - os, ?_, ?_⟩
    · simp [OrdersSideTable.computeRunMs, hos, hoe]
    · simp [OrdersSideTable.computeTotalMs, OrdersSideTable.computeQueueMs, hoc, hos, hoe]

/-- Witness for C9 at a concrete job and order row. -/
theorem duration_additivity_witness :
    (∃ r, JobsTable.computeRunMs ⟨some (some 0), some (some 2), some (some 7)⟩ 10 = some r ∧
      JobsTable.computeTotalMs ⟨some (some 0), some (some 2), some (some 7)⟩ 10 =
        JobsTable.computeQueueMs ⟨some (some 0), some (some 2), some (some 7)⟩ 10 + r) ∧
    (∃ r, OrdersSideTable.computeRunMs ⟨some (some 1), some (some 3), some (some 9)⟩ 10 = some r ∧
      OrdersSideTable.computeTotalMs ⟨some (some 1), some (some 3), some (some 9)⟩ 10 =
        OrdersSideTable.computeQueueMs ⟨some (some 1), some (some 3), some (some 9)⟩ 10 + r) :=
  duration_additivity ⟨some (some 0), some (some 2), some (some 7)⟩
    ⟨some (some 1), some (some 3), some (some 9)⟩ 10 0 2 7 1 3 9 rfl rfl rfl rfl rfl rfl

/-- C6 counterexample: not every request the order-listing components
    issue against the orders API is a read; the Cancel button of
    `OrdersSideTable` (and of `OrdersTable`) issues a POST to
    `/api/v1/orders/1/cancel`. -/
theorem ui_orders_read_only_counterexample :
    ¬ (∀ r ∈ OrdersSideTable.requests 1 ++ OrdersTable.requests 1, isRead r = true) := by
  intro h
  have hmem : OrdersSideTable.cancelOrderRequest 1 ∈
      OrdersSideTable.requests 1 ++ OrdersTable.requests 1 := by
    simp [OrdersSideTable.requests]
  have := h (OrdersSideTable.cancelOrderRequest 1) hmem
  simp [isRead, OrdersSideTable.cancelOrderRequest] at this

/-- C6 amended: every request the order-listing components issue against
    the orders API is a read, except the cancel action, which issues a
    POST to the per-order cancel endpoint (the one UI-reachable mutation
    path for order state). -/
theorem ui_orders_requests_amended (orderId : Nat) :
    (∀ r ∈ OrdersSideTable.requests orderId,
        isRead r = true ∨ r = OrdersSideTable.cancelOrderRequest orderId) ∧
    (∀ r ∈ OrdersTable.requests orderId,
        isRead r = true ∨ r = OrdersTable.cancelOrderRequest orderId) ∧
    (OrdersSideTable.cancelOrderRequest orderId).method = Method.post ∧
    (OrdersTable.cancelOrderRequest orderId).method = Method.post := by
  refine ⟨?_, ?_, rfl, rfl⟩
  · intro r hr
    simp only [OrdersSideTable.requests, List.mem_cons, List.not_mem_nil, or_false] at hr
    rcases hr with h | h | h <;> subst h
    · exact Or.inl rfl
    · exact Or.inl rfl
    · exact Or.inr rfl
  · intro r hr
    simp only [OrdersTable.requests, List.mem_cons, List.not_mem_nil, or_false] at hr
    rcases hr with h | h <;> subst h
    · exact Or.inl rfl
    · exact Or.inr rfl

/-- Witness for the amended C6 at the load request of `OrdersSideTable`. -/
theorem ui_orders_requests_amended_witness :
    isRead OrdersSideTable.loadRequest = true ∨
      OrdersSideTable.loadRequest = OrdersSideTable.cancelOrderRequest 1 :=
  (ui_orders_requests_amended 1).1 OrdersSideTable.loadRequest
    (by simp [OrdersSideTable.requests])

/-- An identifier without a dot has no last-dot split. -/
theorem splitLastDot_eq_none_of_not_mem (raw : List Char) (h : '.' ∉ raw) :
    TradeSync.splitLastDot raw = none := by
  induction raw with
  | nil => rfl
  | cons c rest ih =>
    simp only [List.mem_cons, not_or] at h
    obtain ⟨h1, h2⟩ := h
    simp only [TradeSync.splitLastDot, ih h2]
    simp [Ne.symm h1]

/-- C8: the correction-suffix parser returns a pair
    `(exec_id_base, exec_revision)`; an identifier carrying no revision
    suffix, or an unparseable suffix, yields revision 0; and the stored
    execution row preserves the raw identifier and the raw payload for
    audit, with base and revision derived by the parser. -/
theorem exec_id_parser_defaults :
    (∀ raw : List Char, '.' ∉ raw → TradeSync.parseExecId raw = (raw, 0)) ∧
    (∀ raw base suffix : List Char,
        TradeSync.splitLastDot raw = some (base, suffix) →
        (suffix.isEmpty || !suffix.all Char.isDigit) = true →
        TradeSync.parseExecId raw = (raw, 0)) ∧
    (∀ (r : TradeSync.ExecRecord) (tid : Nat),
        (TradeSync.buildRow r tid).raw = r ∧
        (TradeSync.buildRow r tid).ib_exec_id = r.ib_exec_id ∧
        (TradeSync.buildRow r tid).exec_id_base = (TradeSync.parseExecId r.ib_exec_id).1 ∧
        (TradeSync.buildRow r tid).exec_revision = (TradeSync.parseExecId r.ib_exec_id).2) := by
  refine ⟨?_, ?_, ?_⟩
  · intro raw h
    simp [TradeSync.parseExecId, splitLastDot_eq_none_of_not_mem raw h]
  · intro raw base suffix hsplit hbad
    simp [TradeSync.parseExecId, hsplit, hbad]
  · intro r tid
    exact ⟨rfl, rfl, rfl, rfl⟩

/-- Witness for C8: a dotless identifier and a non-digit suffix both
    parse to revision 0, and a stored sample row keeps its raw record. -/
theorem exec_id_parser_defaults_witness :
    TradeSync.parseExecId "0000e1a7".toList = ("0000e1a7".toList, 0) ∧
    TradeSync.parseExecId "E1.x7".toList = ("E1.x7".toList, 0) ∧
    (TradeSync.buildRow Samples.recE1r0 1).raw = Samples.recE1r0 := by
  refine ⟨?_, ?_, ?_⟩
  · exact exec_id_parser_defaults.1 "0000e1a7".toList (by decide)
  · exact exec_id_parser_defaults.2.1 "E1.x7".toList "E1".toList "x7".toList
      (by decide) (by decide)
  · exact (exec_id_parser_defaults.2.2 Samples.recE1r0 1).1

/-- C7: the parent Trade of an incoming execution is resolved by trying,
    in order: (1) `(account_id, ib_perm_id)` when the permanent
    identifier is nonzero, (2) `(account_id, order_ref)` when the order
    reference is present, (3) the composite
    `(account_id, client_id, ib_order_id, symbol, side, trade_date)`;
    a new Trade is created exactly when no candidate matches the
    applicable criterion. -/
theorem trade_parent_resolution_order :
    (∀ (s : TradeSync.SyncState) (r : TradeSync.ExecRecord) (t : TradeSync.Trade),
        0 < r.ib_perm_id →
        s.trades.find? (TradeSync.permMatches r) = some t →
        TradeSync.resolveTrade s r = (t.id, s)) ∧
    (∀ (s : TradeSync.SyncState) (r : TradeSync.ExecRecord) (oref : String)
        (t : TradeSync.Trade),
        r.ib_perm_id = 0 → r.order_ref = some oref →
        s.trades.find? (TradeSync.orderRefMatches r oref) = some t →
        TradeSync.resolveTrade s r = (t.id, s)) ∧
    (∀ (s : TradeSync.SyncState) (r : TradeSync.ExecRecord) (t : TradeSync.Trade),
        r.ib_perm_id = 0 → r.order_ref = none →
        s.trades.find? (TradeSync.compositeMatches r) = some t →
        TradeSync.resolveTrade s r = (t.id, s)) ∧
    (∀ (s : TradeSync.SyncState) (r : TradeSync.ExecRecord),
        (∀ t ∈ s.trades, TradeSync.tradeRule r t = false) →
        TradeSync.resolveTrade s r =
          (s.nextTradeId,
           { s with trades := s.trades ++ [TradeSync.newTrade r s.nextTradeId]
                    nextTradeId := s.nextTradeId + 1 })) := by
  refine ⟨?_, ?_, ?_, ?_⟩
  · intro s r t hperm hfind
    have hrule : TradeSync.tradeRule r = TradeSync.permMatches r := by
      simp [TradeSync.tradeRule, hperm]
    simp [TradeSync.resolveTrade, hrule, hfind]
  · intro s r oref t hperm horef hfind
    have hrule : TradeSync.tradeRule r = TradeSync.orderRefMatches r oref := by
      simp [TradeSync.tradeRule, hperm, horef]
    simp [TradeSync.resolveTrade, hrule, hfind]
  · intro s r t hperm horef hfind
    have hrule : TradeSync.tradeRule r = TradeSync.compositeMatches r := by
      simp [TradeSync.tradeRule, hperm, horef]
    simp [TradeSync.resolveTrade, hrule, hfind]
  · intro s r hnone
    have hfind : s.trades.find? (TradeSync.tradeRule r) = none :=
      List.find?_eq_none.mpr (by intro t ht; simp [hnone t ht])
    simp [TradeSync.resolveTrade, hfind]

/-- Witness for C7: with a nonzero permanent identifier the resolver
    picks the permanent-id match even though another trade matches the
    order reference, and no trade is created. -/
theorem trade_parent_resolution_order_witness :
    TradeSync.resolveTrade Samples.syncState Samples.recPerm =
      (Samples.tradeByPerm.id, Samples.syncState) :=
  trade_parent_resolution_order.1 Samples.syncState Samples.recPerm Samples.tradeByPerm
    (by decide) (by decide)

/-- Oldest-first selection only ever returns a list member, threading the
    fold accumulator. -/
theorem selectOldest_foldl_mem (l : List Jobs.Job) (acc : Option Jobs.Job) (j : Jobs.Job)
    (h : l.foldl
      (fun acc j =>
        match acc with
        | none => some j
        | some b => if j.created_at < b.created_at then some j else some b)
      acc = some j) :
    j ∈ l ∨ acc = some j := by
  induction l generalizing acc with
  | nil => exact Or.inr h
  | cons x t ih =>
    simp only [List.foldl_cons] at h
    rcases ih _ h with hm | hacc
    · exact Or.inl (List.mem_cons_of_mem _ hm)
    · cases acc with
      | none =>
        simp only [Option.some.injEq] at hacc
        exact Or.inl (hacc ▸ List.mem_cons_self x t)
      | some b =>
        by_cases hlt : x.created_at < b.created_at
        · simp only [hlt, if_true, Option.some.injEq] at hacc
          exact Or.inl (hacc ▸ List.mem_cons_self x t)
        · simp only [hlt, if_false] at hacc
          exact Or.inr hacc

/-- A selected job is a member of the queue and eligible. -/
theorem selectOldest_mem (jobs : List Jobs.Job) (now : Nat) (j : Jobs.Job)
    (h : Jobs.selectOldest jobs now = some j) :
    j ∈ jobs ∧ Jobs.eligible j now = true := by
  unfold Jobs.selectOldest at h
  rcases selectOldest_foldl_mem _ none j h with hm | habs
  · have hmf := List.mem_filter.mp hm
    exact ⟨hmf.1, hmf.2⟩
  · cases habs

/-- After a claim replaces the selected job, every row carrying the
    claimed id is the claimed row. -/
theorem mem_claim_update {jobs : List Jobs.Job} {jid : Nat} {claimed x : Jobs.Job}
    (_hid : claimed.id = jid)
    (hx : x ∈ jobs.map (fun y => if y.id = jid then claimed else y))
    (hxid : x.id = jid) : x = claimed := by
  rcases List.mem_map.mp hx with ⟨y, _, hxy⟩
  by_cases h : y.id = jid
  · rw [if_pos h] at hxy
    exact hxy.symm
  · rw [if_neg h] at hxy
    exact absurd (hxy ▸ hxid) h

/-- Shape of a successful claim. -/
theorem claim_next_some (s : Jobs.QueueState) (w : String) (d now : Nat)
    (j : Jobs.Job) (s' : Jobs.QueueState)
    (h : Jobs.claim_next s w d now = (some j, s')) :
    ∃ j0, Jobs.selectOldest s.jobs now = some j0 ∧
      j = Jobs.claimedJob j0 w d now ∧
      s' = { s with jobs := s.jobs.map (fun x =>
               if x.id = j0.id then Jobs.claimedJob j0 w d now else x) } := by
  unfold Jobs.claim_next at h
  cases hsel : Jobs.selectOldest s.jobs now with
  | none => rw [hsel] at h; cases h
  | some j0 =>
    rw [hsel] at h
    simp only [Prod.mk.injEq, Option.some.injEq] at h
    exact ⟨j0, rfl, h.1.symm, h.2.symm⟩

/-- C1: at most one worker holds a non-expired lease on a job at any
    instant, and two workers whose `claim_next` calls serialize through
    the atomic claim can never be handed the same job: the first claim
    leaves the job `running` with a non-expired lease, so the second
    claim cannot select it. -/
theorem claim_next_mutual_exclusion
    (s : Jobs.QueueState) (w1 w2 : String) (d1 d2 now : Nat)
    (j1 j2 : Jobs.Job) (s1 s2 : Jobs.QueueState)
    (hd1 : 0 < d1)
    (h1 : Jobs.claim_next s w1 d1 now = (some j1, s1))
    (h2 : Jobs.claim_next s1 w2 d2 now = (some j2, s2)) :
    j1.id ≠ j2.id ∧ Jobs.holdsLease j1 w1 now ∧
    (∀ (j : Jobs.Job) (w w' : String) (t : Nat),
        Jobs.holdsLease j w t → Jobs.holdsLease j w' t → w = w') := by
  obtain ⟨j0, hsel1, hj1, hs1⟩ := claim_next_some s w1 d1 now j1 s1 h1
  obtain ⟨j0', hsel2, hj2, _⟩ := claim_next_some s1 w2 d2 now j2 s2 h2
  have hmem2 := selectOldest_mem s1.jobs now j0' hsel2
  have hidj1 : j1.id = j0.id := by rw [hj1]; rfl
  have hidj2 : j2.id = j0'.id := by rw [hj2]; rfl
  refine ⟨?_, ?_, ?_⟩
  · intro heq
    have hid0' : j0'.id = j0.id := by rw [← hidj2, ← heq, hidj1]
    have hmem : j0' ∈ s.jobs.map (fun y =>
        if y.id = j0.id then Jobs.claimedJob j0 w1 d1 now else y) := by
      have h := hmem2.1
      rw [hs1] at h
      exact h
    have hj0' : j0' = Jobs.claimedJob j0 w1 d1 now :=
      @mem_claim_update s.jobs j0.id _ _ rfl hmem hid0'
    have helig := hmem2.2
    rw [hj0'] at helig
    simp [Jobs.eligible, Jobs.claimedJob, Jobs.leaseExpired] at helig
    omega
  · rw [hj1]
    exact ⟨rfl, now + d1, rfl, by omega⟩
  · intro j w w' t hw hw'
    obtain ⟨ho, _⟩ := hw
    obtain ⟨ho', _⟩ := hw'
    rw [ho] at ho'
    exact Option.some.inj ho'

/-- Witness for C1: on a queue of two queued jobs, two claims at the same
    instant hand out different jobs. -/
theorem claim_next_mutual_exclusion_witness :
    Samples.jobA.id ≠ Samples.jobB.id ∧ Jobs.holdsLease Samples.jobA "w1" 2 ∧
    (∀ (j : Jobs.Job) (w w' : String) (t : Nat),
        Jobs.holdsLease j w t → Jobs.holdsLease j w' t → w = w') :=
  claim_next_mutual_exclusion Samples.twoJobs "w1" "w2" 60 60 2
    Samples.jobA Samples.jobB Samples.stateA Samples.stateB
    (by decide) (by decide) (by decide)

/-- C4: the attempt cycle increments the attempt count when the job is
    claimed; `fail(job_id, error)` then returns the job to `queued` when
    `attempt_count < max_attempts` and makes it terminal `failed`
    otherwise.  In particular a job enqueued with `max_attempts = 3`
    whose handler fails twice and then succeeds ends `completed` with
    `attempt_count = 3`. -/
theorem job_fail_retry_semantics :
    (∀ (s : Jobs.QueueState) (w : String) (d now : Nat) (j : Jobs.Job)
        (s1 : Jobs.QueueState) (err : String),
        Jobs.claim_next s w d now = (some j, s1) →
        (∃ j0, Jobs.selectOldest s.jobs now = some j0 ∧
            j = Jobs.claimedJob j0 w d now ∧
            j.attempt_count = j0.attempt_count + 1) ∧
        (∀ x ∈ (Jobs.fail s1 j.id err).jobs, x.id = j.id →
            (j.attempt_count < j.max_attempts →
              x.status = Jobs.JobStatus.queued ∧
              x.attempt_count = j.attempt_count ∧
              x.last_error = some err) ∧
            (¬ j.attempt_count < j.max_attempts →
              x.status = Jobs.JobStatus.failed ∧ x.last_error = some err))) ∧
    (Jobs.findJob Samples.scenarioFinal 0).map (fun j => (j.status, j.attempt_count)) =
      some (Jobs.JobStatus.completed, 3) := by
  constructor
  · intro s w d now j s1 err hclaim
    obtain ⟨j0, hsel, hj, hs1⟩ := claim_next_some s w d now j s1 hclaim
    constructor
    · exact ⟨j0, hsel, hj, by rw [hj]; rfl⟩
    · intro x hx hxid
      have hjid : j.id = j0.id := by rw [hj]; rfl
      rw [Jobs.fail, Jobs.updateJob] at hx
      rcases List.mem_map.mp hx with ⟨y, hy, hxy⟩
      by_cases hcase : y.id = j.id
      · rw [if_pos hcase] at hxy
        have hyj : y = j := by
          rw [hs1] at hy
          have hy' : y ∈ s.jobs.map (fun z =>
              if z.id = j0.id then Jobs.claimedJob j0 w d now else z) := hy
          rw [hj]
          exact @mem_claim_update s.jobs j0.id _ _ rfl hy' (hjid ▸ hcase)
        subst hyj
        constructor
        · intro hlt
          rw [← hxy, if_pos hlt]
          exact ⟨rfl, rfl, rfl⟩
        · intro hge
          rw [← hxy, if_neg hge]
          exact ⟨rfl, rfl⟩
      · rw [if_neg hcase] at hxy
        exact absurd (hxy ▸ hxid) hcase
  · decide

/-- Witness for C4: on the two-job queue, failing the first claimed job
    returns it to `queued` with the attempt counted, and the spec
    scenario ends `completed` with `attempt_count = 3`. -/
theorem job_fail_retry_semantics_witness :
    (Samples.rowA.status = Jobs.JobStatus.queued ∧
      Samples.rowA.attempt_count = Samples.jobA.attempt_count ∧
      Samples.rowA.last_error = some "boom") ∧
    (Jobs.findJob Samples.scenarioFinal 0).map (fun j => (j.status, j.attempt_count)) =
      some (Jobs.JobStatus.completed, 3) :=
  ⟨((job_fail_retry_semantics.1 Samples.twoJobs "w1" 60 2 Samples.jobA Samples.stateA
        "boom" (by decide)).2 Samples.rowA (by decide) (by decide)).1 (by decide),
   job_fail_retry_semantics.2⟩

/-- Applying one fill with a nonnegative delta never lowers the filled
    quantity. -/
theorem applyFill_filled_le (o : Orders.Order) (f : Orders.Fill) (h : 0 ≤ f.qty) :
    o.filled_quantity ≤ (Orders.applyFill o f).filled_quantity := by
  simp only [Orders.applyFill]
  linarith

/-- Every state of the fill scan is at least the start state in filled
    quantity. -/
theorem scanl_filled_ge (fs : List Orders.Fill) (o : Orders.Order)
    (h : ∀ f ∈ fs, 0 ≤ f.qty) :
    ∀ b ∈ List.scanl Orders.applyFill o fs,
      o.filled_quantity ≤ b.filled_quantity := by
  induction fs generalizing o with
  | nil =>
    intro b hb
    simp only [List.scanl_nil, List.mem_singleton] at hb
    rw [hb]
  | cons x t ih =>
    intro b hb
    rw [List.scanl_cons] at hb
    rcases List.mem_append.mp hb with h1 | h2
    · simp only [List.mem_singleton] at h1
      rw [h1]
    · have hx : 0 ≤ x.qty := h x (List.mem_cons_self x t)
      exact le_trans (applyFill_filled_le o x hx)
        (ih (Orders.applyFill o x) (fun f hf => h f (List.mem_cons_of_mem _ hf)) b h2)

/-- The fill scan is pairwise monotone in filled quantity. -/
theorem scanl_filled_pairwise (fs : List Orders.Fill) (o : Orders.Order)
    (h : ∀ f ∈ fs, 0 ≤ f.qty) :
    List.Pairwise (fun a b => a.filled_quantity ≤ b.filled_quantity)
      (List.scanl Orders.applyFill o fs) := by
  induction fs generalizing o with
  | nil => simp [List.scanl_nil]
  | cons x t ih =>
    rw [List.scanl_cons, List.singleton_append, List.pairwise_cons]
    constructor
    · intro b hb
      have hx : 0 ≤ x.qty := h x (List.mem_cons_self x t)
      exact le_trans (applyFill_filled_le o x hx)
        (scanl_filled_ge t (Orders.applyFill o x)
          (fun f hf => h f (List.mem_cons_of_mem _ hf)) b hb)
    · exact ih (Orders.applyFill o x) (fun f hf => h f (List.mem_cons_of_mem _ hf))

/-- C5: an Order's `filled_quantity` is non-decreasing across its event
    history: applying any batch of fill notifications with nonnegative
    deltas — applied in venue-execution-timestamp order, never arrival
    order — never produces a state whose filled quantity is lower than
    any earlier state's, and the applied sequence is indeed sorted by
    venue execution timestamp. -/
theorem filled_quantity_monotone (o : Orders.Order) (fills : List Orders.Fill)
    (h : ∀ f ∈ fills, 0 ≤ f.qty) :
    List.Pairwise (fun a b => a.filled_quantity ≤ b.filled_quantity)
      (Orders.fillHistory o fills) ∧
    List.Pairwise (fun a b => a.exec_time ≤ b.exec_time)
      (Orders.sortFills fills) := by
  constructor
  · exact scanl_filled_pairwise _ o (fun f hf => h f (List.mem_mergeSort.mp hf))
  · have hs := @List.sorted_mergeSort Orders.Fill
      (fun a b => decide (a.exec_time ≤ b.exec_time))
      (by
        intro a b c hab hbc
        simp only [decide_eq_true_eq] at hab hbc ⊢
        omega)
      (by
        intro a b
        simp only [Bool.or_eq_true, decide_eq_true_eq]
        omega)
      fills
    exact hs.imp (fun hd => of_decide_eq_true hd)

/-- Witness for C5 at a concrete order and two out-of-order fills. -/
theorem filled_quantity_monotone_witness :
    List.Pairwise (fun a b => a.filled_quantity ≤ b.filled_quantity)
      (Orders.fillHistory Samples.order0 Samples.fills0) ∧
    List.Pairwise (fun a b => a.exec_time ≤ b.exec_time)
      (Orders.sortFills Samples.fills0) :=
  filled_quantity_monotone Samples.order0 Samples.fills0 (by decide)

/-- Whitespace is never a word character. -/
theorem isWordChar_eq_false_of_isWhitespace (c : Char) (h : c.isWhitespace = true) :
    TradebotChat.isWordChar c = false := by
  simp only [Char.isWhitespace, Bool.or_eq_true, decide_eq_true_eq] at h
  rcases h with ((rfl | rfl) | rfl) | rfl <;> decide

/-- Unfolding `wordRuns` at the empty list. -/
theorem wordRuns_nil : TradebotChat.wordRuns [] = [] := by
  rw [TradebotChat.wordRuns]

/-- Unfolding `sanitizeChars` at the empty list. -/
theorem sanitizeChars_nil : TradebotChat.sanitizeChars [] = [] := by
  rw [TradebotChat.sanitizeChars]

/-- Unfolding `wordRuns` at a non-word head. -/
theorem wordRuns_cons_nonword {c : Char} (t : List Char)
    (h : TradebotChat.isWordChar c = false) :
    TradebotChat.wordRuns (c :: t) = TradebotChat.wordRuns t := by
  rw [TradebotChat.wordRuns]
  simp [h]

/-- Unfolding `wordRuns` at a word head. -/
theorem wordRuns_cons_word {c : Char} (t : List Char)
    (h : TradebotChat.isWordChar c = true) :
    TradebotChat.wordRuns (c :: t) =
      (c :: t.takeWhile TradebotChat.isWordChar) ::
        TradebotChat.wordRuns (t.dropWhile TradebotChat.isWordChar) := by
  rw [TradebotChat.wordRuns]
  simp [h]

/-- Unfolding `sanitizeChars` at a non-word head. -/
theorem sanitizeChars_cons_nonword {c : Char} (t : List Char)
    (h : TradebotChat.isWordChar c = false) :
    TradebotChat.sanitizeChars (c :: t) = c :: TradebotChat.sanitizeChars t := by
  rw [TradebotChat.sanitizeChars]
  simp [h]

/-- Unfolding `sanitizeChars` at a word head. -/
theorem sanitizeChars_cons_word {c : Char} (t : List Char)
    (h : TradebotChat.isWordChar c = true) :
    TradebotChat.sanitizeChars (c :: t) =
      (if TradebotChat.isAccountRun (c :: t.takeWhile TradebotChat.isWordChar)
       then TradebotChat.redactedAccount
       else c :: t.takeWhile TradebotChat.isWordChar) ++
        TradebotChat.sanitizeChars (t.dropWhile TradebotChat.isWordChar) := by
  rw [TradebotChat.sanitizeChars]
  simp [h]

/-- A list of non-word characters has no word runs. -/
theorem wordRuns_eq_nil_of_nonword (l : List Char)
    (h : ∀ x ∈ l, TradebotChat.isWordChar x = false) :
    TradebotChat.wordRuns l = [] := by
  induction l with
  | nil => exact wordRuns_nil
  | cons c t ih =>
    rw [wordRuns_cons_nonword t (h c (List.mem_cons_self c t))]
    exact ih (fun x hx => h x (List.mem_cons_of_mem _ hx))

/-- A nonempty all-word list is its own single word run. -/
theorem wordRuns_eq_singleton_of_word (c : Char) (t : List Char)
    (hc : TradebotChat.isWordChar c = true)
    (ht : ∀ x ∈ t, TradebotChat.isWordChar x = true) :
    TradebotChat.wordRuns (c :: t) = [c :: t] := by
  rw [wordRuns_cons_word t hc, List.takeWhile_eq_self_iff.mpr ht,
    List.dropWhile_eq_nil_iff.mpr ht, wordRuns_nil]

/-- `takeWhile` of a list of failing elements is empty. -/
theorem takeWhile_eq_nil_of_false {p : Char → Bool} (l : List Char)
    (h : ∀ x ∈ l, p x = false) : l.takeWhile p = [] := by
  cases l with
  | nil => rfl
  | cons c t =>
    rw [List.takeWhile_cons, h c (List.mem_cons_self c t)]
    simp

/-- `dropWhile` of a list of failing elements is itself. -/
theorem dropWhile_eq_self_of_false {p : Char → Bool} (l : List Char)
    (h : ∀ x ∈ l, p x = false) : l.dropWhile p = l := by
  cases l with
  | nil => rfl
  | cons c t =>
    rw [List.dropWhile_cons, h c (List.mem_cons_self c t)]
    simp

/-- The head of a `dropWhile` residue fails the predicate. -/
theorem dropWhile_head_false {p : Char → Bool} (l : List Char) (d : Char)
    (t : List Char) (h : l.dropWhile p = d :: t) : p d = false := by
  induction l with
  | nil => cases h
  | cons c r ih =>
    rw [List.dropWhile_cons] at h
    by_cases hc : p c = true
    · rw [if_pos hc] at h
      exact ih h
    · rw [if_neg hc] at h
      obtain ⟨rfl, _⟩ := List.cons.inj h
      exact Bool.eq_false_iff.mpr hc

/-- Prepending a maximal word run before a boundary adds exactly that run. -/
theorem wordRuns_word_prepend (run z : List Char)
    (hne : run ≠ [])
    (hall : ∀ x ∈ run, TradebotChat.isWordChar x = true)
    (hz : z = [] ∨ ∃ d z', z = d :: z' ∧ TradebotChat.isWordChar d = false) :
    TradebotChat.wordRuns (run ++ z) = run :: TradebotChat.wordRuns z := by
  cases run with
  | nil => exact absurd rfl hne
  | cons c t =>
    have hc : TradebotChat.isWordChar c = true := hall c (List.mem_cons_self c t)
    have ht : ∀ x ∈ t, TradebotChat.isWordChar x = true :=
      fun x hx => hall x (List.mem_cons_of_mem _ hx)
    rw [List.cons_append, wordRuns_cons_word _ hc]
    have htake : (t ++ z).takeWhile TradebotChat.isWordChar = t := by
      rw [List.takeWhile_append]
      rw [List.takeWhile_eq_self_iff.mpr ht, if_pos rfl]
      rcases hz with rfl | ⟨d, z', rfl, hd⟩
      · simp
      · rw [List.takeWhile_cons, hd]
        simp
    have hdrop : (t ++ z).dropWhile TradebotChat.isWordChar = z := by
      rw [List.dropWhile_append]
      rw [List.dropWhile_eq_nil_iff.mpr ht]
      rcases hz with rfl | ⟨d, z', rfl, hd⟩
      · simp
      · rw [List.dropWhile_cons, hd]
        simp
    rw [htake, hdrop]

/-- Prepending the replacement text adds exactly its two word runs. -/
theorem wordRuns_redacted_prepend (z : List Char) :
    TradebotChat.wordRuns (TradebotChat.redactedAccount ++ z) =
      "redacted".toList :: "account".toList :: TradebotChat.wordRuns z := by
  have h0 : TradebotChat.redactedAccount =
      '[' :: ("redacted".toList ++ ('-' :: ("account".toList ++ [']']))) := by decide
  have hshape : TradebotChat.redactedAccount ++ z =
      '[' :: ("redacted".toList ++ ('-' :: ("account".toList ++ (']' :: z)))) := by
    rw [h0]
    simp [List.cons_append, List.append_assoc]
  rw [hshape, wordRuns_cons_nonword _ (by decide),
    wordRuns_word_prepend "redacted".toList _ (by decide) (by decide)
      (Or.inr ⟨'-', _, rfl, by decide⟩),
    wordRuns_cons_nonword _ (by decide),
    wordRuns_word_prepend "account".toList _ (by decide) (by decide)
      (Or.inr ⟨']', z, rfl, by decide⟩),
    wordRuns_cons_nonword _ (by decide)]

/-- Appending non-word characters does not change the word runs. -/
theorem wordRuns_append_nonword (xs zs : List Char)
    (hzs : ∀ x ∈ zs, TradebotChat.isWordChar x = false) :
    TradebotChat.wordRuns (xs ++ zs) = TradebotChat.wordRuns xs := by
  suffices H : ∀ n (xs : List Char), xs.length ≤ n →
      TradebotChat.wordRuns (xs ++ zs) = TradebotChat.wordRuns xs from
    H xs.length xs le_rfl
  intro n
  induction n with
  | zero =>
    intro xs hlen
    have hx : xs = [] := List.eq_nil_of_length_eq_zero (Nat.le_zero.mp hlen)
    subst hx
    rw [List.nil_append, wordRuns_nil]
    exact wordRuns_eq_nil_of_nonword zs hzs
  | succ n ih =>
    intro xs hlen
    cases xs with
    | nil =>
      rw [List.nil_append, wordRuns_nil]
      exact wordRuns_eq_nil_of_nonword zs hzs
    | cons c t =>
      have hlt : t.length ≤ n := by
        simp only [List.length_cons] at hlen
        omega
      by_cases hw : TradebotChat.isWordChar c = true
      · rw [List.cons_append, wordRuns_cons_word _ hw, wordRuns_cons_word _ hw]
        by_cases hall : ∀ x ∈ t, TradebotChat.isWordChar x = true
        · rw [List.takeWhile_append, List.takeWhile_eq_self_iff.mpr hall, if_pos rfl,
            takeWhile_eq_nil_of_false zs hzs, List.append_nil,
            List.dropWhile_append, List.dropWhile_eq_nil_iff.mpr hall]
          rw [List.isEmpty_nil, if_pos rfl, dropWhile_eq_self_of_false zs hzs,
            wordRuns_nil, wordRuns_eq_nil_of_nonword zs hzs]
        · have hne : t.dropWhile TradebotChat.isWordChar ≠ [] := by
            intro hnil
            exact hall (List.dropWhile_eq_nil_iff.mp hnil)
          have hlen2 : (t.takeWhile TradebotChat.isWordChar).length ≠ t.length := by
            intro hl
            exact hall (List.takeWhile_eq_self_iff.mp
              (List.IsPrefix.eq_of_length (List.takeWhile_prefix _) hl))
          have hemp : (t.dropWhile TradebotChat.isWordChar).isEmpty = false := by
            cases hdw : t.dropWhile TradebotChat.isWordChar with
            | nil => exact absurd hdw hne
            | cons d dt => rfl
          rw [List.takeWhile_append, if_neg hlen2, List.dropWhile_append, hemp]
          simp only [Bool.false_eq_true, if_false]
          congr 1
          exact ih (t.dropWhile TradebotChat.isWordChar)
            (le_trans (List.Sublist.length_le (List.dropWhile_sublist _)) hlt)
      · have hw' : TradebotChat.isWordChar c = false := Bool.eq_false_iff.mpr hw
        rw [List.cons_append, wordRuns_cons_nonword _ hw', wordRuns_cons_nonword _ hw']
        exact ih t hlt

/-- No word run of a sanitised character list matches the account regex. -/
theorem wordRuns_sanitize_no_account :
    ∀ (cs : List Char),
      ∀ r ∈ TradebotChat.wordRuns (TradebotChat.sanitizeChars cs),
        TradebotChat.isAccountRun r = false := by
  suffices H : ∀ n (cs : List Char), cs.length ≤ n →
      ∀ r ∈ TradebotChat.wordRuns (TradebotChat.sanitizeChars cs),
        TradebotChat.isAccountRun r = false from
    fun cs => H cs.length cs le_rfl
  intro n
  induction n with
  | zero =>
    intro cs hlen r hr
    have hx : cs = [] := List.eq_nil_of_length_eq_zero (Nat.le_zero.mp hlen)
    subst hx
    rw [sanitizeChars_nil, wordRuns_nil] at hr
    cases hr
  | succ n ih =>
    intro cs hlen r hr
    cases cs with
    | nil =>
      rw [sanitizeChars_nil, wordRuns_nil] at hr
      cases hr
    | cons c t =>
      have hlt : t.length ≤ n := by
        simp only [List.length_cons] at hlen
        omega
      have hrest : (t.dropWhile TradebotChat.isWordChar).length ≤ n :=
        le_trans (List.Sublist.length_le (List.dropWhile_sublist _)) hlt
      by_cases hw : TradebotChat.isWordChar c = true
      · rw [sanitizeChars_cons_word t hw] at hr
        by_cases hacc :
            TradebotChat.isAccountRun (c :: t.takeWhile TradebotChat.isWordChar) = true
        · rw [if_pos hacc, wordRuns_redacted_prepend] at hr
          rcases List.mem_cons.mp hr with rfl | hr
          · decide
          rcases List.mem_cons.mp hr with rfl | hr
          · decide
          exact ih _ hrest r hr
        · rw [if_neg hacc] at hr
          have hallw : ∀ x ∈ c :: t.takeWhile TradebotChat.isWordChar,
              TradebotChat.isWordChar x = true := by
            intro x hx
            rcases List.mem_cons.mp hx with rfl | hx
            · exact hw
            · exact List.mem_takeWhile_imp hx
          have hshape :
              TradebotChat.sanitizeChars (t.dropWhile TradebotChat.isWordChar) = [] ∨
              ∃ d z', TradebotChat.sanitizeChars (t.dropWhile TradebotChat.isWordChar) =
                  d :: z' ∧ TradebotChat.isWordChar d = false := by
            cases hdw : t.dropWhile TradebotChat.isWordChar with
            | nil =>
              left
              exact sanitizeChars_nil
            | cons d dt =>
              right
              have hd : TradebotChat.isWordChar d = false :=
                dropWhile_head_false t d dt hdw
              exact ⟨d, TradebotChat.sanitizeChars dt,
                sanitizeChars_cons_nonword dt hd, hd⟩
          rw [wordRuns_word_prepend _ _ (by simp) hallw hshape] at hr
          rcases List.mem_cons.mp hr with rfl | hr
          · exact Bool.eq_false_iff.mpr hacc
          · exact ih _ hrest r hr
      · have hw' : TradebotChat.isWordChar c = false := Bool.eq_false_iff.mpr hw
        rw [sanitizeChars_cons_nonword t hw', wordRuns_cons_nonword _ hw'] at hr
        exact ih t hlt r hr

/-- Dropping leading whitespace does not change the word runs. -/
theorem wordRuns_dropWhile_ws (cs : List Char) :
    TradebotChat.wordRuns (cs.dropWhile Char.isWhitespace) =
      TradebotChat.wordRuns cs := by
  induction cs with
  | nil => rfl
  | cons c t ih =>
    rw [List.dropWhile_cons]
    by_cases hws : c.isWhitespace = true
    · rw [if_pos hws, ih,
        wordRuns_cons_nonword t (isWordChar_eq_false_of_isWhitespace c hws)]
    · rw [if_neg hws]

/-- Trimming does not change the word runs. -/
theorem wordRuns_trimChars (cs : List Char) :
    TradebotChat.wordRuns (TradebotChat.trimChars cs) = TradebotChat.wordRuns cs := by
  unfold TradebotChat.trimChars
  have hsplit : cs.dropWhile Char.isWhitespace =
      ((cs.dropWhile Char.isWhitespace).reverse.dropWhile Char.isWhitespace).reverse ++
      ((cs.dropWhile Char.isWhitespace).reverse.takeWhile Char.isWhitespace).reverse := by
    conv_lhs =>
      rw [← List.reverse_reverse (cs.dropWhile Char.isWhitespace),
        ← List.takeWhile_append_dropWhile Char.isWhitespace
          (cs.dropWhile Char.isWhitespace).reverse]
    rw [List.reverse_append]
  have hws : ∀ x ∈ ((cs.dropWhile Char.isWhitespace).reverse.takeWhile
      Char.isWhitespace).reverse, TradebotChat.isWordChar x = false := by
    intro x hx
    exact isWordChar_eq_false_of_isWhitespace x
      (List.mem_takeWhile_imp (List.mem_reverse.mp hx))
  calc TradebotChat.wordRuns
        ((cs.dropWhile Char.isWhitespace).reverse.dropWhile Char.isWhitespace).reverse
      = TradebotChat.wordRuns
          (((cs.dropWhile Char.isWhitespace).reverse.dropWhile Char.isWhitespace).reverse ++
           ((cs.dropWhile Char.isWhitespace).reverse.takeWhile Char.isWhitespace).reverse) :=
        (wordRuns_append_nonword _ _ hws).symm
    _ = TradebotChat.wordRuns (cs.dropWhile Char.isWhitespace) := by rw [← hsplit]
    _ = TradebotChat.wordRuns cs := wordRuns_dropWhile_ws cs

/-- The fallback text contains no account token. -/
theorem containsAccountToken_redacted :
    TradebotChat.containsAccountToken "[redacted]".toList = false := by
  have h0 : "[redacted]".toList = '[' :: ("redacted".toList ++ [']']) := by decide
  have h1 : "redacted".toList = 'r' :: "edacted".toList := by decide
  unfold TradebotChat.containsAccountToken
  rw [h0, wordRuns_cons_nonword _ (by decide),
    wordRuns_append_nonword "redacted".toList [']'] (by decide), h1,
    wordRuns_eq_singleton_of_word 'r' "edacted".toList (by decide) (by decide)]
  decide

/-- C10: for every outbound user chat message, `sanitizeOutboundText`
    leaves no token matching the broker-account regex in its output and
    never yields an empty string; consequently the request body built by
    `prepareSendMessagesRequest` carries no account token in any
    user-role message. -/
theorem sanitize_outbound_no_account_leak :
    (∀ text : List Char,
        TradebotChat.containsAccountToken (TradebotChat.sanitizeOutboundText text) =
          false ∧
        TradebotChat.sanitizeOutboundText text ≠ []) ∧
    (∀ (messages : List TradebotChat.ChatMessage),
        ∀ m ∈ TradebotChat.outboundMessages messages,
          m.role = TradebotChat.Role.user →
          TradebotChat.containsAccountToken m.text = false ∧ m.text ≠ []) := by
  have main : ∀ text : List Char,
      TradebotChat.containsAccountToken (TradebotChat.sanitizeOutboundText text) =
        false ∧
      TradebotChat.sanitizeOutboundText text ≠ [] := by
    intro text
    unfold TradebotChat.sanitizeOutboundText
    by_cases h : TradebotChat.trimChars (TradebotChat.sanitizeChars text) = []
    · rw [if_pos h]
      exact ⟨containsAccountToken_redacted, by decide⟩
    · rw [if_neg h]
      refine ⟨?_, h⟩
      unfold TradebotChat.containsAccountToken
      rw [wordRuns_trimChars]
      refine List.any_eq_false.mpr (fun r hr => ?_)
      rw [wordRuns_sanitize_no_account text r hr]
      exact Bool.false_ne_true
  refine ⟨main, ?_⟩
  intro messages m hm hrole
  unfold TradebotChat.outboundMessages at hm
  rcases List.mem_filterMap.mp hm with ⟨msg, _, hsome⟩
  by_cases ht : msg.text = []
  · rw [if_pos ht] at hsome
    cases hsome
  · rw [if_neg ht] at hsome
    obtain rfl : m = ⟨msg.role,
        if msg.role = TradebotChat.Role.user
        then TradebotChat.sanitizeOutboundText msg.text
        else msg.text⟩ := (Option.some.inj hsome).symm
    have hrole' : msg.role = TradebotChat.Role.user := hrole
    constructor
    · show TradebotChat.containsAccountToken
        (if msg.role = TradebotChat.Role.user
         then TradebotChat.sanitizeOutboundText msg.text else msg.text) = false
      rw [if_pos hrole']
      exact (main msg.text).1
    · show (if msg.role = TradebotChat.Role.user
        then TradebotChat.sanitizeOutboundText msg.text else msg.text) ≠ []
      rw [if_pos hrole']
      exact (main msg.text).2

/-- Witness for C10 at a concrete message containing an account token. -/
theorem sanitize_outbound_no_account_leak_witness :
    (TradebotChat.containsAccountToken
        (TradebotChat.sanitizeOutboundText "send DU1234567 one lot".toList) = false ∧
      TradebotChat.sanitizeOutboundText "send DU1234567 one lot".toList ≠ []) ∧
    TradebotChat.containsAccountToken
      (TradebotChat.sanitizeOutboundText "DU1234567".toList) = false :=
  ⟨sanitize_outbound_no_account_leak.1 "send DU1234567 one lot".toList,
   (sanitize_outbound_no_account_leak.2
      [⟨TradebotChat.Role.user, "DU1234567".toList⟩]
      ⟨TradebotChat.Role.user,
        TradebotChat.sanitizeOutboundText "DU1234567".toList⟩
      (List.mem_filterMap.mpr
        ⟨⟨TradebotChat.Role.user, "DU1234567".toList⟩,
         List.mem_cons_self _ _,
         by
           rw [if_neg (show ¬ ("DU1234567".toList : List Char) = [] by decide)]
           rw [if_pos rfl]⟩)
      rfl).1⟩

/-- A left fold of `max` yields the seed or a member. -/
theorem foldl_max_eq_or_mem (l : List Nat) : ∀ (a : Nat),
    l.foldl max a = a ∨ l.foldl max a ∈ l := by
  induction l with
  | nil => intro a; exact Or.inl rfl
  | cons x t ih =>
    intro a
    rw [List.foldl_cons]
    rcases ih (max a x) with h | h
    · rw [h]
      rcases Nat.le_total a x with hax | hxa
      · rw [Nat.max_eq_right hax]
        exact Or.inr (List.mem_cons_self x t)
      · rw [Nat.max_eq_left hxa]
        exact Or.inl rfl
    · exact Or.inr (List.mem_cons_of_mem _ h)

/-- A left fold of `max` bounds the seed and every member. -/
theorem foldl_max_bounds (l : List Nat) : ∀ (a : Nat),
    a ≤ l.foldl max a ∧ ∀ x ∈ l, x ≤ l.foldl max a := by
  induction l with
  | nil =>
    intro a
    exact ⟨le_rfl, by simp⟩
  | cons y t ih =>
    intro a
    rw [List.foldl_cons]
    obtain ⟨h1, h2⟩ := ih (max a y)
    refine ⟨le_trans (Nat.le_max_left a y) h1, ?_⟩
    intro x hx
    rcases List.mem_cons.mp hx with rfl | hx
    · exact le_trans (Nat.le_max_right a x) h1
    · exact h2 x hx

/-- On a nonempty list of naturals, the zero-seeded fold of `max` is
    attained by a member. -/
theorem foldl_max_zero_mem (l : List Nat) (h : l ≠ []) : l.foldl max 0 ∈ l := by
  rcases foldl_max_eq_or_mem l 0 with h0 | hm
  · cases l with
    | nil => exact absurd rfl h
    | cons x t =>
      have hx := (foldl_max_bounds (x :: t) 0).2 x (List.mem_cons_self x t)
      rw [h0] at hx
      have hx0 : x = 0 := Nat.le_zero.mp hx
      rw [h0, ← hx0]
      exact List.mem_cons_self x t
  · exact hm

/-- Flag updates do not affect group membership. -/
theorem inGroup_setFlag (a : Nat) (base : List Char) (e : TradeSync.TradeExecution)
    (b : Bool) :
    TradeSync.inGroup a base { e with is_canonical := b } =
      TradeSync.inGroup a base e := rfl

/-- Flag updates do not affect the upsert key. -/
theorem keyMatch_setFlag (ka : Nat) (kid : List Char) (e : TradeSync.TradeExecution)
    (b : Bool) :
    TradeSync.keyMatch ka kid { e with is_canonical := b } =
      TradeSync.keyMatch ka kid e := rfl

/-- A row in one correction group is in no other. -/
theorem inGroup_other (a a' : Nat) (base base' : List Char)
    (x : TradeSync.TradeExecution)
    (hg : TradeSync.inGroup a base x = true)
    (hne : ¬(a' = a ∧ base' = base)) :
    TradeSync.inGroup a' base' x = false := by
  unfold TradeSync.inGroup at hg ⊢
  simp only [Bool.and_eq_true, beq_iff_eq] at hg
  obtain ⟨h1, h2⟩ := hg
  by_contra hcon
  rw [Bool.not_eq_false] at hcon
  simp only [Bool.and_eq_true, beq_iff_eq] at hcon
  exact hne ⟨hcon.1.symm.trans h1, hcon.2.symm.trans h2⟩

/-- Every marked row arises from a row of the input, possibly with its
    canonical flag rewritten. -/
theorem markGroup_mem_shape (a : Nat) (base : List Char) (m : Nat) :
    ∀ (l : List TradeSync.TradeExecution) (d : Bool) (e : TradeSync.TradeExecution),
      e ∈ TradeSync.markGroup a base m l d →
      ∃ y ∈ l, e = y ∨ e = { y with is_canonical := true } ∨
        e = { y with is_canonical := false } := by
  intro l
  induction l with
  | nil =>
    intro d e he
    rw [TradeSync.markGroup] at he
    cases he
  | cons x t ih =>
    intro d e he
    rw [TradeSync.markGroup] at he
    by_cases hg : TradeSync.inGroup a base x = true
    · rw [if_pos hg] at he
      by_cases hc : (x.exec_revision == m && !d) = true
      · rw [if_pos hc] at he
        rcases List.mem_cons.mp he with rfl | he
        · exact ⟨x, List.mem_cons_self x t, Or.inr (Or.inl rfl)⟩
        · obtain ⟨y, hy, hsh⟩ := ih true e he
          exact ⟨y, List.mem_cons_of_mem _ hy, hsh⟩
      · rw [if_neg hc] at he
        rcases List.mem_cons.mp he with rfl | he
        · exact ⟨x, List.mem_cons_self x t, Or.inr (Or.inr rfl)⟩
        · obtain ⟨y, hy, hsh⟩ := ih d e he
          exact ⟨y, List.mem_cons_of_mem _ hy, hsh⟩
    · rw [if_neg hg] at he
      rcases List.mem_cons.mp he with heq | he
      · exact ⟨x, List.mem_cons_self x t, Or.inl heq⟩
      · obtain ⟨y, hy, hsh⟩ := ih d e he
        exact ⟨y, List.mem_cons_of_mem _ hy, hsh⟩

/-- Marking one group leaves every other group's rows untouched. -/
theorem markGroup_filter_other (a : Nat) (base : List Char) (m : Nat)
    (a' : Nat) (base' : List Char) (hne : ¬(a' = a ∧ base' = base)) :
    ∀ (l : List TradeSync.TradeExecution) (d : Bool),
      (TradeSync.markGroup a base m l d).filter (TradeSync.inGroup a' base') =
        l.filter (TradeSync.inGroup a' base') := by
  intro l
  induction l with
  | nil =>
    intro d
    rw [TradeSync.markGroup]
  | cons x t ih =>
    intro d
    rw [TradeSync.markGroup]
    by_cases hg : TradeSync.inGroup a base x = true
    · have hng : TradeSync.inGroup a' base' x = false := inGroup_other a a' base base' x hg hne
      rw [if_pos hg]
      by_cases hc : (x.exec_revision == m && !d) = true
      · rw [if_pos hc, List.filter_cons, List.filter_cons, inGroup_setFlag, hng]
        simp only [Bool.false_eq_true, if_false]
        exact ih true
      · rw [if_neg hc, List.filter_cons, List.filter_cons, inGroup_setFlag, hng]
        simp only [Bool.false_eq_true, if_false]
        exact ih d
    · rw [if_neg hg, List.filter_cons, List.filter_cons]
      by_cases hx : TradeSync.inGroup a' base' x = true
      · rw [hx]
        simp only [if_true]
        rw [ih d]
      · rw [Bool.eq_false_iff.mpr hx]
        simp only [Bool.false_eq_true, if_false]
        exact ih d

/-- Marking preserves the revisions of the marked group. -/
theorem markGroup_group_revs (a : Nat) (base : List Char) (m : Nat) :
    ∀ (l : List TradeSync.TradeExecution) (d : Bool),
      ((TradeSync.markGroup a base m l d).filter (TradeSync.inGroup a base)).map
          (fun e => e.exec_revision) =
        (l.filter (TradeSync.inGroup a base)).map (fun e => e.exec_revision) := by
  intro l
  induction l with
  | nil =>
    intro d
    rw [TradeSync.markGroup]
  | cons x t ih =>
    intro d
    rw [TradeSync.markGroup]
    by_cases hg : TradeSync.inGroup a base x = true
    · rw [if_pos hg]
      by_cases hc : (x.exec_revision == m && !d) = true
      · rw [if_pos hc, List.filter_cons, List.filter_cons, inGroup_setFlag, hg]
        simp only [if_true, List.map_cons]
        rw [ih true]
      · rw [if_neg hc, List.filter_cons, List.filter_cons, inGroup_setFlag, hg]
        simp only [if_true, List.map_cons]
        rw [ih d]
    · have hg' : TradeSync.inGroup a base x = false := Bool.eq_false_iff.mpr hg
      rw [if_neg hg, List.filter_cons, List.filter_cons, hg']
      simp only [Bool.false_eq_true, if_false]
      exact ih d

/-- Canonical count after marking: exactly one inside the marked group
    when the maximal revision occurs and the canonical slot is free. -/
theorem markGroup_count (a : Nat) (base : List Char) (m : Nat) :
    ∀ (l : List TradeSync.TradeExecution) (d : Bool),
      ((TradeSync.markGroup a base m l d).filter (TradeSync.inGroup a base)).countP
          (fun e => e.is_canonical) =
        if d then 0
        else if (l.filter (TradeSync.inGroup a base)).any
            (fun e => e.exec_revision == m) then 1 else 0 := by
  intro l
  induction l with
  | nil =>
    intro d
    rw [TradeSync.markGroup]
    cases d <;> simp
  | cons x t ih =>
    intro d
    rw [TradeSync.markGroup]
    by_cases hg : TradeSync.inGroup a base x = true
    · rw [if_pos hg]
      by_cases hc : (x.exec_revision == m && !d) = true
      · rw [if_pos hc, List.filter_cons, inGroup_setFlag, hg]
        simp only [if_true, List.countP_cons]
        rw [ih true]
        simp only [Bool.and_eq_true, Bool.not_eq_eq_eq_not, Bool.not_true] at hc
        obtain ⟨hrev, hd⟩ := hc
        subst hd
        rw [List.filter_cons, hg]
        simp only [if_true, List.any_cons, hrev, Bool.true_or, if_true, if_false]
        rfl
      · rw [if_neg hc, List.filter_cons, inGroup_setFlag, hg]
        simp only [if_true, List.countP_cons]
        rw [ih d]
        cases d with
        | true => simp
        | false =>
          have hrev : (x.exec_revision == m) = false := by
            by_contra hcon
            rw [Bool.not_eq_false] at hcon
            exact hc (by rw [hcon]; rfl)
          rw [List.filter_cons, hg]
          simp only [if_true, List.any_cons, hrev, Bool.false_or]
          simp
    · have hg' : TradeSync.inGroup a base x = false := Bool.eq_false_iff.mpr hg
      rw [if_neg hg, List.filter_cons, List.filter_cons, hg']
      simp only [Bool.false_eq_true, if_false]
      exact ih d

/-- Every canonical row of the marked group carries revision `m`. -/
theorem markGroup_canonical_rev (a : Nat) (base : List Char) (m : Nat) :
    ∀ (l : List TradeSync.TradeExecution) (d : Bool)
      (e : TradeSync.TradeExecution),
      e ∈ TradeSync.markGroup a base m l d →
      TradeSync.inGroup a base e = true → e.is_canonical = true →
      e.exec_revision = m := by
  intro l
  induction l with
  | nil =>
    intro d e he
    rw [TradeSync.markGroup] at he
    cases he
  | cons x t ih =>
    intro d e he hge hce
    rw [TradeSync.markGroup] at he
    by_cases hg : TradeSync.inGroup a base x = true
    · rw [if_pos hg] at he
      by_cases hc : (x.exec_revision == m && !d) = true
      · rw [if_pos hc] at he
        rcases List.mem_cons.mp he with rfl | he
        · simp only [Bool.and_eq_true] at hc
          exact beq_iff_eq.mp hc.1
        · exact ih true e he hge hce
      · rw [if_neg hc] at he
        rcases List.mem_cons.mp he with rfl | he
        · cases hce
        · exact ih d e he hge hce
    · rw [if_neg hg] at he
      rcases List.mem_cons.mp he with heq | he
      · rw [heq] at hge
        exact absurd hge hg
      · exact ih d e he hge hce

/-- A row belongs to its own correction group. -/
theorem inGroup_self (e : TradeSync.TradeExecution) :
    TradeSync.inGroup e.account_id e.exec_id_base e = true := by
  simp [TradeSync.inGroup]

/-- A row matches its own upsert key. -/
theorem keyMatch_self (e : TradeSync.TradeExecution) :
    TradeSync.keyMatch e.account_id e.ib_exec_id e = true := by
  simp [TradeSync.keyMatch]

/-- Under field consistency, a key-matching row lies in the key's group. -/
theorem key_in_group (row : TradeSync.TradeExecution)
    (hrow : row.exec_id_base = (TradeSync.parseExecId row.ib_exec_id).1)
    (es : List TradeSync.TradeExecution) (hf : TradeSync.fieldsOK es) :
    ∀ e ∈ es, TradeSync.keyMatch row.account_id row.ib_exec_id e = true →
      TradeSync.inGroup row.account_id row.exec_id_base e = true := by
  intro e he hk
  unfold TradeSync.keyMatch at hk
  simp only [Bool.and_eq_true, beq_iff_eq] at hk
  obtain ⟨h1, h2⟩ := hk
  unfold TradeSync.inGroup
  simp only [Bool.and_eq_true, beq_iff_eq]
  exact ⟨h1, by rw [(hf e he).1, h2, hrow]⟩

/-- Replacing the keyed row touches only the key's own group. -/
theorem filter_map_other_aux (row : TradeSync.TradeExecution) (a' : Nat)
    (base' : List Char) (hne : ¬(a' = row.account_id ∧ base' = row.exec_id_base)) :
    ∀ es : List TradeSync.TradeExecution,
      (∀ e ∈ es, TradeSync.keyMatch row.account_id row.ib_exec_id e = true →
        TradeSync.inGroup row.account_id row.exec_id_base e = true) →
      (es.map (fun e =>
          if TradeSync.keyMatch row.account_id row.ib_exec_id e then
            { row with is_canonical := e.is_canonical }
          else e)).filter (TradeSync.inGroup a' base') =
        es.filter (TradeSync.inGroup a' base') := by
  intro es
  induction es with
  | nil => intro _; rfl
  | cons x t ih =>
    intro hkeys
    rw [List.map_cons, List.filter_cons, List.filter_cons]
    by_cases hk : TradeSync.keyMatch row.account_id row.ib_exec_id x = true
    · rw [if_pos hk]
      have hx' : TradeSync.inGroup a' base' x = false :=
        inGroup_other _ _ _ _ x (hkeys x (List.mem_cons_self x t) hk) hne
      have hrow' : TradeSync.inGroup a' base'
          { row with is_canonical := x.is_canonical } = false := by
        rw [inGroup_setFlag]
        exact inGroup_other _ _ _ _ row (inGroup_self row) hne
      rw [hx', hrow']
      simp only [Bool.false_eq_true, if_false]
      exact ih (fun e he hke => hkeys e (List.mem_cons_of_mem _ he) hke)
    · rw [if_neg hk]
      by_cases hg : TradeSync.inGroup a' base' x = true
      · rw [hg]
        simp only [if_true]
        rw [ih (fun e he hke => hkeys e (List.mem_cons_of_mem _ he) hke)]
      · rw [Bool.eq_false_iff.mpr hg]
        simp only [Bool.false_eq_true, if_false]
        exact ih (fun e he hke => hkeys e (List.mem_cons_of_mem _ he) hke)

/-- Upserting a row touches only the row's own correction group. -/
theorem upsert_filter_other (es : List TradeSync.TradeExecution)
    (row : TradeSync.TradeExecution)
    (hrow : row.exec_id_base = (TradeSync.parseExecId row.ib_exec_id).1)
    (hf : TradeSync.fieldsOK es) (a' : Nat) (base' : List Char)
    (hne : ¬(a' = row.account_id ∧ base' = row.exec_id_base)) :
    (TradeSync.upsertExec es row).filter (TradeSync.inGroup a' base') =
      es.filter (TradeSync.inGroup a' base') := by
  unfold TradeSync.upsertExec
  by_cases hany : es.any (TradeSync.keyMatch row.account_id row.ib_exec_id) = true
  · rw [if_pos hany]
    exact filter_map_other_aux row a' base' hne es (key_in_group row hrow es hf)
  · rw [if_neg hany, List.filter_append, List.filter_cons]
    have hrg : TradeSync.inGroup a' base' row = false :=
      inGroup_other _ _ _ _ row (inGroup_self row) hne
    rw [hrg]
    simp

/-- The upserted row's group is nonempty afterwards. -/
theorem upsert_group_ne_nil (es : List TradeSync.TradeExecution)
    (row : TradeSync.TradeExecution) :
    (TradeSync.upsertExec es row).filter
      (TradeSync.inGroup row.account_id row.exec_id_base) ≠ [] := by
  unfold TradeSync.upsertExec
  by_cases hany : es.any (TradeSync.keyMatch row.account_id row.ib_exec_id) = true
  · rw [if_pos hany]
    obtain ⟨e, he, hke⟩ := List.any_eq_true.mp hany
    have hmem2 : ({ row with is_canonical := e.is_canonical } :
        TradeSync.TradeExecution) ∈ es.map (fun x =>
          if TradeSync.keyMatch row.account_id row.ib_exec_id x then
            { row with is_canonical := x.is_canonical }
          else x) := List.mem_map.mpr ⟨e, he, by simp [hke]⟩
    exact List.ne_nil_of_mem (List.mem_filter.mpr ⟨hmem2,
      by rw [inGroup_setFlag]; exact inGroup_self row⟩)
  · rw [if_neg hany, List.filter_append]
    apply List.append_ne_nil_of_right_ne_nil
    rw [List.filter_cons, inGroup_self row]
    simp

/-- Upserting a parser-consistent row preserves field consistency. -/
theorem fieldsOK_upsert (es : List TradeSync.TradeExecution)
    (row : TradeSync.TradeExecution) (hf : TradeSync.fieldsOK es)
    (hrow : row.exec_id_base = (TradeSync.parseExecId row.ib_exec_id).1 ∧
      row.exec_revision = (TradeSync.parseExecId row.ib_exec_id).2) :
    TradeSync.fieldsOK (TradeSync.upsertExec es row) := by
  unfold TradeSync.upsertExec
  by_cases hany : es.any (TradeSync.keyMatch row.account_id row.ib_exec_id) = true
  · rw [if_pos hany]
    intro e he
    rcases List.mem_map.mp he with ⟨y, hy, hye⟩
    by_cases hk : TradeSync.keyMatch row.account_id row.ib_exec_id y = true
    · simp only [hk, if_true] at hye
      rw [← hye]
      exact hrow
    · simp only [hk, if_false] at hye
      rw [← hye]
      exact hf y hy
  · rw [if_neg hany]
    intro e he
    rcases List.mem_append.mp he with h | h
    · exact hf e h
    · rw [List.mem_singleton] at h
      rw [h]
      exact hrow

/-- Marking preserves field consistency. -/
theorem fieldsOK_mark (a : Nat) (base : List Char) (m : Nat)
    (l : List TradeSync.TradeExecution) (d : Bool) (hf : TradeSync.fieldsOK l) :
    TradeSync.fieldsOK (TradeSync.markGroup a base m l d) := by
  intro e he
  obtain ⟨y, hy, hsh⟩ := markGroup_mem_shape a base m l d e he
  rcases hsh with heq | heq | heq <;> rw [heq] <;> exact hf y hy

/-- Recomputing all aggregates establishes the aggregate invariant. -/
theorem aggOK_recomputeAll (s : TradeSync.SyncState) :
    TradeSync.aggOK (TradeSync.recomputeAllAggregates s) := by
  intro t ht
  rcases List.mem_map.mp ht with ⟨t0, _, rfl⟩
  exact ⟨rfl, rfl⟩

/-- Resolving the parent trade never touches the execution table. -/
theorem resolve_execs (s : TradeSync.SyncState) (r : TradeSync.ExecRecord) :
    (TradeSync.resolveTrade s r).2.execs = s.execs := by
  cases hfind : s.trades.find? (TradeSync.tradeRule r) <;>
    simp [TradeSync.resolveTrade, hfind]

/-- Unfolding `ingest` into its pipeline. -/
theorem ingest_def (s : TradeSync.SyncState) (r : TradeSync.ExecRecord) :
    TradeSync.ingest s r =
      TradeSync.recomputeAllAggregates
        { (TradeSync.resolveTrade s r).2 with
          execs := TradeSync.recanonicalize
            (TradeSync.upsertExec (TradeSync.resolveTrade s r).2.execs
              (TradeSync.buildRow r (TradeSync.resolveTrade s r).1))
            r.account_id (TradeSync.parseExecId r.ib_exec_id).1 } := rfl

/-- The execution table after `ingest`. -/
theorem ingest_execs (s : TradeSync.SyncState) (r : TradeSync.ExecRecord) :
    (TradeSync.ingest s r).execs =
      TradeSync.recanonicalize
        (TradeSync.upsertExec s.execs
          (TradeSync.buildRow r (TradeSync.resolveTrade s r).1))
        r.account_id (TradeSync.parseExecId r.ib_exec_id).1 := by
  rw [ingest_def, resolve_execs]
  rfl

/-- Marking never changes a group's highest revision. -/
theorem maxRev_mark (a : Nat) (base : List Char) (m : Nat)
    (l : List TradeSync.TradeExecution) (d : Bool) (a' : Nat) (base' : List Char) :
    TradeSync.maxRev (TradeSync.markGroup a base m l d) a' base' =
      TradeSync.maxRev l a' base' := by
  unfold TradeSync.maxRev TradeSync.groupRevs
  by_cases hsame : a' = a ∧ base' = base
  · obtain ⟨rfl, rfl⟩ := hsame
    rw [markGroup_group_revs]
  · rw [markGroup_filter_other a base m a' base' hsame l d]

/-- Recanonicalizing after an upsert establishes the canonicality
    invariant on the upserted group and preserves it on all others. -/
theorem canonOK_recanon_upsert (es : List TradeSync.TradeExecution)
    (row : TradeSync.TradeExecution)
    (hrow : row.exec_id_base = (TradeSync.parseExecId row.ib_exec_id).1)
    (hf : TradeSync.fieldsOK es) (hc : TradeSync.canonOK es) :
    TradeSync.canonOK (TradeSync.recanonicalize (TradeSync.upsertExec es row)
      row.account_id row.exec_id_base) := by
  intro a' base' hne'
  by_cases hsame : a' = row.account_id ∧ base' = row.exec_id_base
  · obtain ⟨rfl, rfl⟩ := hsame
    unfold TradeSync.recanonicalize at hne' ⊢
    constructor
    · rw [markGroup_count]
      have hne1 : (TradeSync.upsertExec es row).filter
          (TradeSync.inGroup row.account_id row.exec_id_base) ≠ [] :=
        upsert_group_ne_nil es row
      have hrevs : TradeSync.groupRevs (TradeSync.upsertExec es row)
          row.account_id row.exec_id_base ≠ [] := by
        unfold TradeSync.groupRevs
        exact fun hcon => hne1 (List.map_eq_nil_iff.mp hcon)
      have hmem : TradeSync.maxRev (TradeSync.upsertExec es row)
          row.account_id row.exec_id_base ∈
          TradeSync.groupRevs (TradeSync.upsertExec es row)
            row.account_id row.exec_id_base :=
        foldl_max_zero_mem _ hrevs
      obtain ⟨e, he, hrev⟩ := List.mem_map.mp hmem
      have hany : ((TradeSync.upsertExec es row).filter
          (TradeSync.inGroup row.account_id row.exec_id_base)).any
          (fun e => e.exec_revision ==
            TradeSync.maxRev (TradeSync.upsertExec es row)
              row.account_id row.exec_id_base) = true :=
        List.any_eq_true.mpr ⟨e, he, beq_iff_eq.mpr hrev⟩
      rw [hany]
      simp
    · intro e he hcan
      have hm := markGroup_canonical_rev row.account_id row.exec_id_base _
        (TradeSync.upsertExec es row) false e
        (List.mem_filter.mp he).1 (List.mem_filter.mp he).2 hcan
      rw [hm, maxRev_mark]
  · have h1 : (TradeSync.recanonicalize (TradeSync.upsertExec es row)
        row.account_id row.exec_id_base).filter (TradeSync.inGroup a' base') =
        (TradeSync.upsertExec es row).filter (TradeSync.inGroup a' base') := by
      unfold TradeSync.recanonicalize
      exact markGroup_filter_other _ _ _ _ _ hsame _ false
    have h2 : (TradeSync.upsertExec es row).filter (TradeSync.inGroup a' base') =
        es.filter (TradeSync.inGroup a' base') :=
      upsert_filter_other es row hrow hf a' base' hsame
    have h3 : TradeSync.maxRev (TradeSync.recanonicalize (TradeSync.upsertExec es row)
        row.account_id row.exec_id_base) a' base' = TradeSync.maxRev es a' base' := by
      unfold TradeSync.maxRev TradeSync.groupRevs
      rw [h1, h2]
    have hne0 : es.filter (TradeSync.inGroup a' base') ≠ [] := by
      rwa [h1, h2] at hne'
    constructor
    · rw [h1, h2]
      exact (hc a' base' hne0).1
    · intro e he hcan
      rw [h1, h2] at he
      rw [h3]
      exact (hc a' base' hne0).2 e he hcan

/-- Field consistency is preserved by `ingest`. -/
theorem fieldsOK_ingest (s : TradeSync.SyncState) (r : TradeSync.ExecRecord)
    (hf : TradeSync.fieldsOK s.execs) : TradeSync.fieldsOK (TradeSync.ingest s r).execs := by
  rw [ingest_execs]
  exact fieldsOK_mark _ _ _ _ _
    (fieldsOK_upsert s.execs (TradeSync.buildRow r (TradeSync.resolveTrade s r).1)
      hf ⟨rfl, rfl⟩)

/-- Canonicality is preserved (and established on the touched group) by
    `ingest`. -/
theorem canonOK_ingest (s : TradeSync.SyncState) (r : TradeSync.ExecRecord)
    (hf : TradeSync.fieldsOK s.execs) (hc : TradeSync.canonOK s.execs) :
    TradeSync.canonOK (TradeSync.ingest s r).execs := by
  rw [ingest_execs]
  exact canonOK_recanon_upsert s.execs
    (TradeSync.buildRow r (TradeSync.resolveTrade s r).1) rfl hf hc

/-- The aggregate invariant holds after every `ingest`. -/
theorem aggOK_ingest (s : TradeSync.SyncState) (r : TradeSync.ExecRecord) :
    TradeSync.aggOK (TradeSync.ingest s r) := by
  rw [ingest_def]
  exact aggOK_recomputeAll _

/-- C2: after any sequence of `ingest` calls from the empty state, every
    nonempty `(account_id, exec_id_base)` group of `trade_executions` has
    exactly one canonical row — one carrying the group's maximum
    `exec_revision` — and every Trade's stored aggregates equal the
    aggregates of its canonical executions only, regardless of the order
    in which revisions were ingested. -/
theorem trade_executions_canonicality (records : List TradeSync.ExecRecord) :
    TradeSync.canonOK (records.foldl TradeSync.ingest TradeSync.initialState).execs ∧
    TradeSync.aggOK (records.foldl TradeSync.ingest TradeSync.initialState) := by
  suffices H : ∀ (recs : List TradeSync.ExecRecord) (s : TradeSync.SyncState),
      TradeSync.fieldsOK s.execs → TradeSync.canonOK s.execs → TradeSync.aggOK s →
      TradeSync.fieldsOK (recs.foldl TradeSync.ingest s).execs ∧
      TradeSync.canonOK (recs.foldl TradeSync.ingest s).execs ∧
      TradeSync.aggOK (recs.foldl TradeSync.ingest s) by
    obtain ⟨_, h2, h3⟩ := H records TradeSync.initialState
      (fun e he => absurd he (List.not_mem_nil e))
      (fun a b hne => absurd rfl hne)
      (fun t ht => absurd ht (List.not_mem_nil t))
    exact ⟨h2, h3⟩
  intro recs
  induction recs with
  | nil =>
    intro s h1 h2 h3
    exact ⟨h1, h2, h3⟩
  | cons r t ih =>
    intro s h1 h2 h3
    rw [List.foldl_cons]
    exact ih (TradeSync.ingest s r) (fieldsOK_ingest s r h1)
      (canonOK_ingest s r h1 h2) (aggOK_ingest s r)

/-- Witness for C2: ingesting revision 1 of `E1` before revision 0, the
    `E1` group ends with exactly one canonical row, carrying the maximum
    revision. -/
theorem trade_executions_canonicality_witness :
    (([Samples.recE1r1, Samples.recE1r0].foldl TradeSync.ingest
        TradeSync.initialState).execs.filter
        (TradeSync.inGroup 1 "E1".toList)).countP (fun e => e.is_canonical) = 1 ∧
    ∀ e ∈ ([Samples.recE1r1, Samples.recE1r0].foldl TradeSync.ingest
        TradeSync.initialState).execs.filter (TradeSync.inGroup 1 "E1".toList),
      e.is_canonical = true →
      e.exec_revision =
        TradeSync.maxRev ([Samples.recE1r1, Samples.recE1r0].foldl TradeSync.ingest
          TradeSync.initialState).execs 1 "E1".toList :=
  (trade_executions_canonicality [Samples.recE1r1, Samples.recE1r0]).1
    1 "E1".toList (by decide)

/-- Trade-rule matching ignores aggregate fields. -/
theorem tradeRule_recompute (r : TradeSync.ExecRecord)
    (es : List TradeSync.TradeExecution) (t : TradeSync.Trade) :
    TradeSync.tradeRule r (TradeSync.recomputeAggregates es t) =
      TradeSync.tradeRule r t := by
  unfold TradeSync.tradeRule
  by_cases hp : 0 < r.ib_perm_id
  · rw [if_pos hp]
    rfl
  · rw [if_neg hp]
    cases ho : r.order_ref with
    | some oref => rfl
    | none => rfl

/-- A freshly created trade matches its own record's resolution rule. -/
theorem tradeRule_newTrade (r : TradeSync.ExecRecord) (n : Nat) :
    TradeSync.tradeRule r (TradeSync.newTrade r n) = true := by
  unfold TradeSync.tradeRule
  by_cases hp : 0 < r.ib_perm_id
  · rw [if_pos hp]
    simp [TradeSync.permMatches, TradeSync.newTrade]
  · rw [if_neg hp]
    cases ho : r.order_ref with
    | some oref => simp [TradeSync.orderRefMatches, TradeSync.newTrade, ho]
    | none => simp [TradeSync.compositeMatches, TradeSync.newTrade]

/-- Resolution outcome when a candidate is found. -/
theorem resolveTrade_found (s : TradeSync.SyncState) (r : TradeSync.ExecRecord)
    (t : TradeSync.Trade) (h : s.trades.find? (TradeSync.tradeRule r) = some t) :
    TradeSync.resolveTrade s r = (t.id, s) := by
  simp [TradeSync.resolveTrade, h]

/-- Resolution outcome when no candidate is found. -/
theorem resolveTrade_notfound (s : TradeSync.SyncState) (r : TradeSync.ExecRecord)
    (h : s.trades.find? (TradeSync.tradeRule r) = none) :
    TradeSync.resolveTrade s r =
      (s.nextTradeId,
       { s with trades := s.trades ++ [TradeSync.newTrade r s.nextTradeId]
                nextTradeId := s.nextTradeId + 1 }) := by
  simp [TradeSync.resolveTrade, h]

/-- Resolving again after an `ingest` of the same record finds the same
    parent and leaves the state unchanged. -/
theorem resolveTrade_after_ingest (s : TradeSync.SyncState)
    (r : TradeSync.ExecRecord) :
    TradeSync.resolveTrade (TradeSync.ingest s r) r =
      ((TradeSync.resolveTrade s r).1, TradeSync.ingest s r) := by
  have htrades : (TradeSync.ingest s r).trades =
      ((TradeSync.resolveTrade s r).2.trades).map
        (TradeSync.recomputeAggregates (TradeSync.ingest s r).execs) := rfl
  have hcomp : (TradeSync.tradeRule r ∘
      TradeSync.recomputeAggregates (TradeSync.ingest s r).execs) =
      TradeSync.tradeRule r :=
    funext (fun t => tradeRule_recompute r _ t)
  have hfind2 : (TradeSync.ingest s r).trades.find? (TradeSync.tradeRule r) =
      ((TradeSync.resolveTrade s r).2.trades.find? (TradeSync.tradeRule r)).map
        (TradeSync.recomputeAggregates (TradeSync.ingest s r).execs) := by
    rw [htrades, List.find?_map, hcomp]
  cases hfind : s.trades.find? (TradeSync.tradeRule r) with
  | some t =>
    have hres := resolveTrade_found s r t hfind
    have h2 : (TradeSync.ingest s r).trades.find? (TradeSync.tradeRule r) =
        some (TradeSync.recomputeAggregates (TradeSync.ingest s r).execs t) := by
      rw [hfind2, hres]
      show Option.map _ (List.find? (TradeSync.tradeRule r) s.trades) = _
      rw [hfind]
      rfl
    rw [resolveTrade_found _ r _ h2, hres]
    rfl
  | none =>
    have hres := resolveTrade_notfound s r hfind
    have hnew : (TradeSync.resolveTrade s r).2.trades.find? (TradeSync.tradeRule r) =
        some (TradeSync.newTrade r s.nextTradeId) := by
      rw [hres, List.find?_append, hfind]
      rw [List.find?_cons_of_pos _ (tradeRule_newTrade r s.nextTradeId)]
      rfl
    have h2 : (TradeSync.ingest s r).trades.find? (TradeSync.tradeRule r) =
        some (TradeSync.recomputeAggregates (TradeSync.ingest s r).execs
          (TradeSync.newTrade r s.nextTradeId)) := by
      rw [hfind2, hnew]
      rfl
    rw [resolveTrade_found _ r _ h2, hres]
    rfl

/-- After an upsert, a row with the upserted key is present. -/
theorem upsert_any_key (es : List TradeSync.TradeExecution)
    (row : TradeSync.TradeExecution) :
    (TradeSync.upsertExec es row).any
      (TradeSync.keyMatch row.account_id row.ib_exec_id) = true := by
  unfold TradeSync.upsertExec
  by_cases hany : es.any (TradeSync.keyMatch row.account_id row.ib_exec_id) = true
  · rw [if_pos hany]
    obtain ⟨e, he, hke⟩ := List.any_eq_true.mp hany
    refine List.any_eq_true.mpr ⟨{ row with is_canonical := e.is_canonical },
      List.mem_map.mpr ⟨e, he, by simp [hke]⟩, ?_⟩
    rw [keyMatch_setFlag]
    exact keyMatch_self row
  · rw [if_neg hany]
    exact List.any_eq_true.mpr ⟨row,
      List.mem_append.mpr (Or.inr (List.mem_singleton.mpr rfl)), keyMatch_self row⟩

/-- Marking preserves the presence of a key. -/
theorem mark_any_key (a : Nat) (base : List Char) (m : Nat) (ka : Nat)
    (kid : List Char) :
    ∀ (l : List TradeSync.TradeExecution) (d : Bool),
      (TradeSync.markGroup a base m l d).any (TradeSync.keyMatch ka kid) =
        l.any (TradeSync.keyMatch ka kid) := by
  intro l
  induction l with
  | nil => intro d; rfl
  | cons x t ih =>
    intro d
    rw [TradeSync.markGroup]
    by_cases hg : TradeSync.inGroup a base x = true
    · rw [if_pos hg]
      by_cases hc : (x.exec_revision == m && !d) = true
      · rw [if_pos hc, List.any_cons, List.any_cons, keyMatch_setFlag, ih true]
      · rw [if_neg hc, List.any_cons, List.any_cons, keyMatch_setFlag, ih d]
    · rw [if_neg hg, List.any_cons, List.any_cons, ih d]

/-- Marking preserves key multiplicity. -/
theorem mark_countP_key (a : Nat) (base : List Char) (m : Nat) (ka : Nat)
    (kid : List Char) :
    ∀ (l : List TradeSync.TradeExecution) (d : Bool),
      (TradeSync.markGroup a base m l d).countP (TradeSync.keyMatch ka kid) =
        l.countP (TradeSync.keyMatch ka kid) := by
  intro l
  induction l with
  | nil => intro d; rfl
  | cons x t ih =>
    intro d
    rw [TradeSync.markGroup]
    by_cases hg : TradeSync.inGroup a base x = true
    · rw [if_pos hg]
      by_cases hc : (x.exec_revision == m && !d) = true
      · rw [if_pos hc, List.countP_cons, List.countP_cons, keyMatch_setFlag, ih true]
      · rw [if_neg hc, List.countP_cons, List.countP_cons, keyMatch_setFlag, ih d]
    · rw [if_neg hg, List.countP_cons, List.countP_cons, ih d]

/-- An upsert leaves exactly one row with the upserted key when at most
    one was present before. -/
theorem countP_key_upsert (es : List TradeSync.TradeExecution)
    (row : TradeSync.TradeExecution)
    (hcnt : es.countP (TradeSync.keyMatch row.account_id row.ib_exec_id) ≤ 1) :
    (TradeSync.upsertExec es row).countP
      (TradeSync.keyMatch row.account_id row.ib_exec_id) = 1 := by
  unfold TradeSync.upsertExec
  by_cases hany : es.any (TradeSync.keyMatch row.account_id row.ib_exec_id) = true
  · rw [if_pos hany]
    rw [List.countP_map]
    have hcong : es.countP ((TradeSync.keyMatch row.account_id row.ib_exec_id) ∘
        (fun e => if TradeSync.keyMatch row.account_id row.ib_exec_id e then
          { row with is_canonical := e.is_canonical } else e)) =
        es.countP (TradeSync.keyMatch row.account_id row.ib_exec_id) := by
      apply List.countP_congr
      intro e _
      by_cases hk : TradeSync.keyMatch row.account_id row.ib_exec_id e = true
      · simp [hk, keyMatch_setFlag, keyMatch_self row]
      · simp [hk]
    rw [hcong]
    have hpos : 0 < es.countP (TradeSync.keyMatch row.account_id row.ib_exec_id) :=
      List.countP_pos_iff.mpr (List.any_eq_true.mp hany)
    omega
  · rw [if_neg hany, List.countP_append, List.countP_cons, keyMatch_self]
    have h0 : es.countP (TradeSync.keyMatch row.account_id row.ib_exec_id) = 0 :=
      List.countP_eq_zero.mpr (fun e he hke =>
        hany (List.any_eq_true.mpr ⟨e, he, hke⟩))
    rw [h0]
    rfl

/-- Every key-matching row after an upsert agrees with the upserted row
    except possibly in its canonical flag. -/
theorem upsert_dataEq (es : List TradeSync.TradeExecution)
    (row : TradeSync.TradeExecution) :
    ∀ e ∈ TradeSync.upsertExec es row,
      TradeSync.keyMatch row.account_id row.ib_exec_id e = true →
      e = { row with is_canonical := e.is_canonical } := by
  unfold TradeSync.upsertExec
  by_cases hany : es.any (TradeSync.keyMatch row.account_id row.ib_exec_id) = true
  · rw [if_pos hany]
    intro e he hke
    rcases List.mem_map.mp he with ⟨y, hy, hye⟩
    by_cases hk : TradeSync.keyMatch row.account_id row.ib_exec_id y = true
    · simp only [hk, if_true] at hye
      rw [← hye]
    · simp only [hk, if_false] at hye
      rw [← hye] at hke
      exact absurd hke hk
  · rw [if_neg hany]
    intro e he hke
    rcases List.mem_append.mp he with h | h
    · exact absurd (List.any_eq_true.mpr ⟨e, h, hke⟩) hany
    · rw [List.mem_singleton] at h
      rw [h]

/-- The data agreement of key rows survives marking. -/
theorem mark_dataEq (a : Nat) (base : List Char) (m : Nat)
    (row : TradeSync.TradeExecution) (l : List TradeSync.TradeExecution) (d : Bool)
    (hl : ∀ e ∈ l, TradeSync.keyMatch row.account_id row.ib_exec_id e = true →
      e = { row with is_canonical := e.is_canonical }) :
    ∀ e ∈ TradeSync.markGroup a base m l d,
      TradeSync.keyMatch row.account_id row.ib_exec_id e = true →
      e = { row with is_canonical := e.is_canonical } := by
  intro e he hke
  obtain ⟨y, hy, hsh⟩ := markGroup_mem_shape a base m l d e he
  rcases hsh with heq | heq | heq
  · rw [heq]
    rw [heq] at hke
    exact hl y hy hke
  · rw [heq] at hke ⊢
    rw [keyMatch_setFlag] at hke
    have hy' := hl y hy hke
    rw [hy']
  · rw [heq] at hke ⊢
    rw [keyMatch_setFlag] at hke
    have hy' := hl y hy hke
    rw [hy']

/-- Upserting a row whose key rows already agree with it is a no-op. -/
theorem upsert_second_noop (l : List TradeSync.TradeExecution)
    (row : TradeSync.TradeExecution)
    (hany : l.any (TradeSync.keyMatch row.account_id row.ib_exec_id) = true)
    (hdata : ∀ e ∈ l, TradeSync.keyMatch row.account_id row.ib_exec_id e = true →
      e = { row with is_canonical := e.is_canonical }) :
    TradeSync.upsertExec l row = l := by
  unfold TradeSync.upsertExec
  rw [if_pos hany]
  have hmap : l.map (fun e =>
      if TradeSync.keyMatch row.account_id row.ib_exec_id e then
        { row with is_canonical := e.is_canonical }
      else e) = l.map id := by
    apply List.map_congr_left
    intro e he
    by_cases hk : TradeSync.keyMatch row.account_id row.ib_exec_id e = true
    · rw [if_pos hk]
      exact (hdata e he hk).symm
    · rw [if_neg hk]
      rfl
  rw [hmap, List.map_id]

/-- Marking a group at the same target revision twice equals marking it
    once. -/
theorem markGroup_idem (a : Nat) (base : List Char) (m : Nat) :
    ∀ (l : List TradeSync.TradeExecution) (d : Bool),
      TradeSync.markGroup a base m (TradeSync.markGroup a base m l d) d =
        TradeSync.markGroup a base m l d := by
  intro l
  induction l with
  | nil => intro d; rfl
  | cons x t ih =>
    intro d
    rw [TradeSync.markGroup]
    by_cases hg : TradeSync.inGroup a base x = true
    · rw [if_pos hg]
      by_cases hc : (x.exec_revision == m && !d) = true
      · rw [if_pos hc]
        rw [TradeSync.markGroup,
          if_pos (show TradeSync.inGroup a base
            { x with is_canonical := true } = true from hg),
          if_pos (show (({ x with is_canonical := true } :
            TradeSync.TradeExecution).exec_revision == m && !d) = true from hc),
          ih true]
      · rw [if_neg hc]
        rw [TradeSync.markGroup,
          if_pos (show TradeSync.inGroup a base
            { x with is_canonical := false } = true from hg),
          if_neg (show ¬(({ x with is_canonical := false } :
            TradeSync.TradeExecution).exec_revision == m && !d) = true from hc),
          ih d]
    · rw [if_neg hg]
      rw [TradeSync.markGroup, if_neg (show ¬TradeSync.inGroup a base x = true from hg),
        ih d]

/-- Recomputing one trade's aggregates twice equals once. -/
theorem recomputeAgg_idem (es : List TradeSync.TradeExecution) (t : TradeSync.Trade) :
    TradeSync.recomputeAggregates es (TradeSync.recomputeAggregates es t) =
      TradeSync.recomputeAggregates es t := rfl

/-- Recomputing all aggregates twice equals once. -/
theorem recomputeAll_idem (s : TradeSync.SyncState) :
    TradeSync.recomputeAllAggregates (TradeSync.recomputeAllAggregates s) =
      TradeSync.recomputeAllAggregates s := by
  unfold TradeSync.recomputeAllAggregates
  simp only [List.map_map]
  congr 1

/-- C3: `ingest` is idempotent: re-ingesting the same raw record leaves
    the whole state unchanged, and (when the key was unique before, as
    the unique index guarantees) exactly one stored row carries the
    record's `(account_id, ib_exec_id)` key after ingestion. -/
theorem ingest_idempotent (s : TradeSync.SyncState) (r : TradeSync.ExecRecord) :
    TradeSync.ingest (TradeSync.ingest s r) r = TradeSync.ingest s r ∧
    (s.execs.countP (TradeSync.keyMatch r.account_id r.ib_exec_id) ≤ 1 →
      (TradeSync.ingest s r).execs.countP
        (TradeSync.keyMatch r.account_id r.ib_exec_id) = 1) := by
  constructor
  · have hstep : TradeSync.ingest (TradeSync.ingest s r) r =
        TradeSync.recomputeAllAggregates
          { TradeSync.ingest s r with
            execs := TradeSync.recanonicalize
              (TradeSync.upsertExec (TradeSync.ingest s r).execs
                (TradeSync.buildRow r (TradeSync.resolveTrade s r).1))
              r.account_id (TradeSync.parseExecId r.ib_exec_id).1 } := by
      rw [ingest_def (TradeSync.ingest s r) r, resolveTrade_after_ingest s r]
    have hub : TradeSync.upsertExec (TradeSync.ingest s r).execs
        (TradeSync.buildRow r (TradeSync.resolveTrade s r).1) =
        (TradeSync.ingest s r).execs := by
      apply upsert_second_noop
      · rw [ingest_execs]
        unfold TradeSync.recanonicalize
        rw [mark_any_key]
        exact upsert_any_key s.execs _
      · rw [ingest_execs]
        unfold TradeSync.recanonicalize
        exact mark_dataEq _ _ _ _ _ false (upsert_dataEq s.execs _)
    have hrc : TradeSync.recanonicalize (TradeSync.ingest s r).execs
        r.account_id (TradeSync.parseExecId r.ib_exec_id).1 =
        (TradeSync.ingest s r).execs := by
      rw [ingest_execs]
      unfold TradeSync.recanonicalize
      rw [maxRev_mark]
      exact markGroup_idem _ _ _ _ false
    have heta : ({ TradeSync.ingest s r with
        execs := (TradeSync.ingest s r).execs } : TradeSync.SyncState) =
        TradeSync.ingest s r := rfl
    rw [hstep, hub, hrc, heta, ingest_def s r]
    exact recomputeAll_idem _
  · intro hcnt
    rw [ingest_execs]
    unfold TradeSync.recanonicalize
    rw [mark_countP_key]
    exact countP_key_upsert s.execs
      (TradeSync.buildRow r (TradeSync.resolveTrade s r).1) hcnt

/-- Witness for C3: re-ingesting the `E1` record into the empty state is
    a no-op, and exactly one row carries its key. -/
theorem ingest_idempotent_witness :
    TradeSync.ingest (TradeSync.ingest TradeSync.initialState Samples.recE1r0)
        Samples.recE1r0 =
      TradeSync.ingest TradeSync.initialState Samples.recE1r0 ∧
    (TradeSync.ingest TradeSync.initialState Samples.recE1r0).execs.countP
      (TradeSync.keyMatch Samples.recE1r0.account_id Samples.recE1r0.ib_exec_id) = 1 :=
  ⟨(ingest_idempotent TradeSync.initialState Samples.recE1r0).1,
   (ingest_idempotent TradeSync.initialState Samples.recE1r0).2 (by decide)⟩

end NextGenTrader
